import Mathlib

/-!
Verification development for the OPC-UA MQTT ingestion engine
(source/ingest_app_opc_mqtt/app.py and the read-only panel extension).

The Python source is shallowly embedded: strings are Lean `String`s
manipulated as `List Char` (all the Python string operations used by the
source are single-character-wise or fixed two-character-wise, so the regex
substitutions are embedded as directly recursive character-list
transformations with Python's left-to-right, non-overlapping scan
semantics); JSON values (the result of json.loads) are an inductive type;
the USD stage reachable through the live layer is an association list from
prim paths to prims, each prim holding a type tag and an association list
from attribute names to string values (the only value type the source
writes).  Exceptions are modelled as an outcome value: on_message catches
every exception, so an exception aborts the processing of one message,
keeps all mutations already made, and performs no commit.  The single
omni.client.live_process() call at the end of write_to_opc_semantics is
the commit; the WriteEffect.commits field counts how often it runs.
-/


/-! ## Association lists (lookup and first-occurrence update) -/

def alookup {α : Type} (k : String) : List (String × α) → Option α
  | [] => none
  | (k', v) :: rest => if k' = k then some v else alookup k rest

def aupdate {α : Type} (k : String) (f : α → α) : List (String × α) → List (String × α)
  | [] => []
  | (k', v) :: rest => if k' = k then (k', f v) :: rest else (k', v) :: aupdate k f rest

/-! ## ASCII character classes used by the source's regexes

The source applies `re.sub` with the ASCII classes below and Python's
`str.lower`/`str.strip`.  They are embedded through the character's
code point so that facts about them reduce to linear arithmetic. -/

def pyIsUpperC (c : Char) : Bool := 65 ≤ c.toNat && c.toNat ≤ 90

def pyIsLowerC (c : Char) : Bool := 97 ≤ c.toNat && c.toNat ≤ 122

def pyIsDigitC (c : Char) : Bool := 48 ≤ c.toNat && c.toNat ≤ 57

def pyIsAlnumC (c : Char) : Bool := pyIsUpperC c || pyIsLowerC c || pyIsDigitC c

def pyIsSpaceC (c : Char) : Bool :=
  c = ' ' || c = Char.ofNat 9 || c = Char.ofNat 10 || c = Char.ofNat 13 ||
  c = Char.ofNat 11 || c = Char.ofNat 12

def pyLowerChar (c : Char) : Char :=
  if pyIsUpperC c then Char.ofNat (c.toNat + 32) else c

/-! ## The sanitize_name pipeline (app.py lines 41-55)

Each stage embeds one statement of the Python function, in order:
  1. name.strip().strip('/')
  2. re.sub(r'[^a-zA-Z0-9/_-]', '_', ...)   (single characters: a map)
  3. .replace('-', '_')
  4. re.sub(r'/(\d)', r'/_\1', ...)          (left-to-right scan)
  5. re.sub(r'/(_)+', '/', ...)              (greedy, left-to-right scan)
  6. .replace("//", "/")                     (left-to-right scan)
  7. empty check raising ValueError
  8. .lower()
Python's strip()/lower() also act on non-ASCII code points; the source
only ever feeds topic/writer/property names, where ASCII is what the
regexes of step 2 keep, so the embedding fixes the ASCII meaning. -/

def lstripBy (p : Char → Bool) (l : List Char) : List Char := l.dropWhile p

def rstripBy (p : Char → Bool) (l : List Char) : List Char :=
  (l.reverse.dropWhile p).reverse

def pstripBy (p : Char → Bool) (l : List Char) : List Char := rstripBy p (lstripBy p l)

def sub1char (c : Char) : Char :=
  if pyIsAlnumC c || c = '/' || c = '_' || c = '-' then c else '_'

def hyphenToUnderscore (c : Char) : Char := if c = '-' then '_' else c

def iuGo : Bool → List Char → List Char
  | _, [] => []
  | prevSlash, c :: rest =>
    if prevSlash && pyIsDigitC c then '_' :: c :: iuGo false rest
    else c :: iuGo (c = '/') rest

def insertUnderscoreAfterSlashDigit (l : List Char) : List Char := iuGo false l

def csuGo : Bool → List Char → List Char
  | _, [] => []
  | afterSlash, c :: rest =>
    if afterSlash && c = '_' then csuGo true rest
    else if c = '/' then '/' :: csuGo true rest
    else c :: csuGo false rest

def collapseSlashUnderscores (l : List Char) : List Char := csuGo false l

def collapseDoubleSlashes : List Char → List Char
  | [] => []
  | '/' :: '/' :: rest => '/' :: collapseDoubleSlashes rest
  | c :: rest => c :: collapseDoubleSlashes rest

def sanitizeChars (l : List Char) : List Char :=
  collapseDoubleSlashes (collapseSlashUnderscores (insertUnderscoreAfterSlashDigit
    ((pstripBy (fun c => c = '/') (pstripBy pyIsSpaceC l)).map
      (fun c => hyphenToUnderscore (sub1char c)))))

instance exceptStringDecEq : DecidableEq (Except String String) := fun a b =>
  match a, b with
  | .ok x, .ok y =>
    if h : x = y then isTrue (congrArg Except.ok h)
    else isFalse (fun hh => h (Except.ok.inj hh))
  | .error x, .error y =>
    if h : x = y then isTrue (congrArg Except.error h)
    else isFalse (fun hh => h (Except.error.inj hh))
  | .ok _, .error _ => isFalse (fun hh => Except.noConfusion hh)
  | .error _, .ok _ => isFalse (fun hh => Except.noConfusion hh)

def sanitize_name (name : String) : Except String String :=
  let sanitized := sanitizeChars name.data
  if sanitized = [] then .error ("Invalid name: " ++ name)
  else .ok ⟨sanitized.map pyLowerChar⟩

/-! ## JSON values

A Json value is the result of a successful json.loads on the raw MQTT
message text.  JSON numbers are embedded as integers (the payloads the
source handles carry values that are strings or integers; IEEE floats are
outside the embedding).  An object is the Python dict in insertion order;
json.loads collapses duplicate keys, so in the states the source actually
sees the keys of an obj are distinct, though no theorem below needs that. -/

inductive Json where
  | null : Json
  | bool (b : Bool) : Json
  | num (n : Int) : Json
  | str (s : String) : Json
  | arr (xs : List Json) : Json
  | obj (fields : List (String × Json)) : Json

def squoteChar : Char := Char.ofNat 39

def dquoteChar : Char := Char.ofNat 34

def pyEscapeChar (q c : Char) : List Char :=
  if c = '\\' then ['\\', '\\']
  else if c = q then ['\\', q]
  else if c = Char.ofNat 10 then ['\\', 'n']
  else if c = Char.ofNat 13 then ['\\', 'r']
  else if c = Char.ofNat 9 then ['\\', 't']
  else [c]

/-- Python repr of a str: single quotes, or double quotes when the text
contains a single quote and no double quote; printable characters kept,
with backslash, quote, newline, carriage-return and tab escaped. -/

def pyReprString (s : String) : String :=
  let q := if s.data.contains squoteChar && !(s.data.contains dquoteChar)
           then dquoteChar else squoteChar
  ⟨[q] ++ (s.data.map (pyEscapeChar q)).flatten ++ [q]⟩

mutual

def pyRepr : Json → String
  | .null => "None"
  | .bool true => "True"
  | .bool false => "False"
  | .num n => toString n
  | .str s => pyReprString s
  | .arr xs => "[" ++ pyReprList xs ++ "]"
  | .obj fs => "\x7b" ++ pyReprFields fs ++ "\x7d"

def pyReprList : List Json → String
  | [] => ""
  | [x] => pyRepr x
  | x :: y :: rest => pyRepr x ++ ", " ++ pyReprList (y :: rest)

def pyReprFields : List (String × Json) → String
  | [] => ""
  | [(k, v)] => pyReprString k ++ ": " ++ pyRepr v
  | (k, v) :: p :: rest => pyReprString k ++ ": " ++ pyRepr v ++ ", " ++ pyReprFields (p :: rest)

end

/-- Python str(value) as applied by item_attr.Set(str(value)): a string is
taken verbatim, every other value is rendered as its repr text. -/

def pyStr : Json → String
  | .str s => s
  | .null => "None"
  | .bool true => "True"
  | .bool false => "False"
  | .num n => toString n
  | .arr xs => pyRepr (.arr xs)
  | .obj fs => pyRepr (.obj fs)

/-- Python truthiness of a decoded JSON value, as tested by
the source's if not payload check. -/

def truthy : Json → Bool
  | .null => false
  | .bool b => b
  | .num n => n ≠ 0
  | .str s => s ≠ ""
  | .arr xs => !xs.isEmpty
  | .obj fs => !fs.isEmpty

def isObjJson : Json → Bool
  | .obj _ => true
  | _ => false

def isScalarJson : Json → Bool
  | .null => true
  | .bool _ => true
  | .num _ => true
  | .str _ => true
  | .arr _ => false
  | .obj _ => false

/-- Python single-character str.replace, the only form the source uses. -/

def pyReplaceChar (a b : Char) (s : String) : String :=
  ⟨s.data.map fun c => if c = a then b else c⟩

def splitOnChar (sep : Char) : List Char → List (List Char)
  | [] => [[]]
  | c :: rest =>
    match splitOnChar sep rest with
    | [] => [[]]
    | seg :: segs => if c = sep then [] :: seg :: segs else (c :: seg) :: segs

/-! ## The USD stage reachable through the live layer

A prim is its type tag together with its attributes; attribute values are
the strings written by item_attr.Set(str(value)).  The stage is an
association list from prim paths to prims; DefinePrim appends, existing
prims are updated in place, nothing is ever deleted. -/

structure Prim where
  typ : String
  attrs : List (String × String)
deriving DecidableEq

abbrev Stage := List (String × Prim)

def GetPrimAtPath (stage : Stage) (path : String) : Option Prim := alookup path stage

/-- app.py lines 58-70: prepend a slash when absent, return the existing
prim or define a new one of the given type at the end of the stage. -/

def withSlash (path : String) : String :=
  match path.data with
  | '/' :: _ => path
  | _ => "/" ++ path

def ensureAt (stage : Stage) (path typ : String) : Stage :=
  match alookup path stage with
  | some _ => stage
  | none => stage ++ [(path, ⟨typ, []⟩)]

def ensure_prim_exists (stage : Stage) (path typ : String) : Stage × String :=
  let p := withSlash path
  (ensureAt stage p typ, p)

/-- GetAttribute on a prim. -/

def GetAttribute (p : Prim) (key : String) : Option String := alookup key p.attrs

/-- CreateAttribute with the String value type: the attribute appears with
no value yet, embedded as the empty string that the following Set always
overwrites. -/

def CreateAttribute (p : Prim) (key : String) : Prim :=
  ⟨p.typ, p.attrs ++ [(key, "")]⟩

def setAttributeValue (p : Prim) (key val : String) : Prim :=
  ⟨p.typ, aupdate key (fun _ => val) p.attrs⟩

/-- app.py lines 175-183 for one key/value pair: GetAttribute, then
CreateAttribute if absent, then Set(str(value)). -/

def setAttrOnPrim (p : Prim) (key val : String) : Prim :=
  let p1 := match GetAttribute p key with
            | none => CreateAttribute p key
            | some _ => p
  setAttributeValue p1 key val

def setPrimAttr (stage : Stage) (path key val : String) : Stage :=
  aupdate path (fun p => setAttrOnPrim p key val) stage

/-! ## write_to_opc_semantics (app.py lines 135-186)

The message argument is the parse result of the raw MQTT text: none when
json.loads raised (the source catches that and returns without raising).
The outcome records how processing ended; on_message (lines 194-200)
catches every raised exception, so a failed outcome keeps the mutations
already made and performs no commit.  commits counts the executions of the
final omni.client.live_process() call. -/

inductive WriteOutcome where
  | applied : WriteOutcome
  | parseError : WriteOutcome
  | dropped : WriteOutcome
  | failed (msg : String) : WriteOutcome
deriving DecidableEq

structure WriteEffect where
  stage : Stage
  commits : Nat
  outcome : WriteOutcome
deriving DecidableEq

def isFailedOutcome : WriteOutcome → Bool
  | .failed _ => true
  | _ => false

/-- app.py lines 164-183: the loop over payload["Payload"].items().
Returns the mutated stage and the error of the exception that stopped the
loop, if any; mutations made before the exception are kept.  For each
property the prim is ensured first, then each attribute of its data is
written; property_data.items() raises when property_data is not a dict,
after the prim was already ensured. -/

def processProps (stage : Stage) (base : String) : List (String × Json) → Stage × Option String
  | [] => (stage, none)
  | (property_id, property_data) :: rest =>
    let property_name : List Char := (splitOnChar ':' property_id.data).getLastD []
    let semantic_label := pyReplaceChar '.' '_' (pyReplaceChar ';' '_' ⟨property_name⟩)
    let semantic_path := base ++ "/" ++ semantic_label
    match sanitize_name semantic_path with
    | .error e => (stage, some e)
    | .ok spath =>
      let ep := ensure_prim_exists stage spath "Scope"
      match property_data with
      | .obj attrs =>
        processProps (attrs.foldl (fun st kv => setPrimAttr st ep.2 kv.1 (pyStr kv.2)) ep.1)
          base rest
      | _ => (ep.1, some "AttributeError: items")

/-- The writer-name field: payload.get("DataSetWriterName", "") followed by
.replace(":", "_").replace(" ", "_").  A present non-string value makes
.replace raise AttributeError; that arm is reported through none. -/

def getWriterField (fields : List (String × Json)) : Option String :=
  match alookup "DataSetWriterName" fields with
  | none => some ""
  | some (.str s) => some s
  | some _ => none

def write_to_opc_semantics (opc_topic : String) (msg : Option Json) (stage : Stage) :
    WriteEffect :=
  match msg with
  | none => ⟨stage, 0, .parseError⟩
  | some payload =>
    if truthy payload = false then ⟨stage, 0, .failed "Payload is missing from the message."⟩
    else
      match payload with
      | .obj fields =>
        match getWriterField fields with
        | none => ⟨stage, 0, .failed "AttributeError: replace"⟩
        | some wn =>
          let writer_name := pyReplaceChar ' ' '_' (pyReplaceChar ':' '_' wn)
          if writer_name = "" then
            ⟨stage, 0, .failed "DataSetWriterName is missing from the payload."⟩
          else
            let base_opc_path := "iot/opc_delta/" ++ opc_topic ++ "/" ++ writer_name ++ "/"
            match alookup "Payload" fields with
            | none => ⟨stage, 0, .failed "KeyError: Payload"⟩
            | some (.obj props) =>
              match processProps stage base_opc_path props with
              | (st, none) => ⟨st, 1, .applied⟩
              | (st, some e) => ⟨st, 0, .failed e⟩
            | some _ => ⟨stage, 0, .failed "AttributeError: items"⟩
      | _ => ⟨stage, 0, .failed "AttributeError: get"⟩

/-! ## Staleness filtering

Modelled from the spec: the opc_mqtt ingestion script under scrutiny omits
staleness handling; the repository's other, near-identical ingestion
variant carries it and the spec (sections 2, 4.4, 9) describes it as part
of the unified pipeline.  The definitions below therefore embed the
StalenessFilter from the spec text: parse the embedded timestamp of the
fixed textual format YYYY-MM-DDTHH:MM:SS, fail open (treat the record as
fresh) when parsing fails or the field is absent, and reject the record
when it is older than the freshness window (default 10 minutes) relative
to processing time.  Instants are absolute seconds on the proleptic
Gregorian calendar. -/

def digitValC (c : Char) : Nat := c.toNat - 48

def isLeapYear (y : Nat) : Bool := (y % 4 = 0 && y % 100 ≠ 0) || y % 400 = 0

/-- Modelled from the spec: cumulative day count before the given month. -/

def daysBeforeMonth (leap : Bool) (m : Nat) : Nat :=
  let feb := if leap then 29 else 28
  match m with
  | 1 => 0
  | 2 => 31
  | 3 => 31 + feb
  | 4 => 62 + feb
  | 5 => 92 + feb
  | 6 => 123 + feb
  | 7 => 153 + feb
  | 8 => 184 + feb
  | 9 => 215 + feb
  | 10 => 245 + feb
  | 11 => 276 + feb
  | _ => 306 + feb

/-- Modelled from the spec: days from 0001-01-01 to the given civil date. -/

def rataDie (y m d : Nat) : Nat :=
  (y - 1) * 365 + (y - 1) / 4 - (y - 1) / 100 + (y - 1) / 400 +
    daysBeforeMonth (isLeapYear y) m + (d - 1)

/-- Modelled from the spec: parse the fixed textual timestamp format
YYYY-MM-DDTHH:MM:SS into absolute seconds; none on any mismatch. -/

def parseTimestamp (s : String) : Option Nat :=
  match s.data with
  | [y1, y2, y3, y4, '-', m1, m2, '-', d1, d2, 'T', h1, h2, ':', mi1, mi2, ':', s1, s2] =>
    if [y1, y2, y3, y4, m1, m2, d1, d2, h1, h2, mi1, mi2, s1, s2].all pyIsDigitC then
      let y := ((digitValC y1 * 10 + digitValC y2) * 10 + digitValC y3) * 10 + digitValC y4
      let mo := digitValC m1 * 10 + digitValC m2
      let d := digitValC d1 * 10 + digitValC d2
      let h := digitValC h1 * 10 + digitValC h2
      let mi := digitValC mi1 * 10 + digitValC mi2
      let sec := digitValC s1 * 10 + digitValC s2
      if 1 ≤ mo && mo ≤ 12 && 1 ≤ d && d ≤ 31 && h ≤ 23 && mi ≤ 59 && sec ≤ 59 then
        some (rataDie y mo d * 86400 + h * 3600 + mi * 60 + sec)
      else none
    else none
  | _ => none

/-- Modelled from the spec: the default freshness window of 10 minutes,
in seconds. -/

def DEFAULT_FRESHNESS_WINDOW : Nat := 600

/-- Modelled from the spec: the embedded timestamp field of a decoded
payload, when present as text. -/

def extractTimeStamp (j : Json) : Option String :=
  match j with
  | .obj fields =>
    match alookup "TimeStamp" fields with
    | some (.str s) => some s
    | _ => none
  | _ => none

/-- Modelled from the spec: the pure staleness decision
isFresh(record, now, window); a record of unknown age is fresh. -/

def isFresh (tsField : Option String) (now window : Nat) : Bool :=
  match tsField with
  | none => true
  | some s =>
    match parseTimestamp s with
    | none => true
    | some ts => now - ts ≤ window

/-- Modelled from the spec: the unified pipeline PayloadDecoder to
StalenessFilter to DocumentSynchronizer; a stale record is dropped before
any document mutation and before the commit. -/

def ingest_with_staleness (now window : Nat) (opc_topic : String) (msg : Option Json)
    (stage : Stage) : WriteEffect :=
  match msg with
  | none => ⟨stage, 0, .parseError⟩
  | some j =>
    if isFresh (extractTimeStamp j) now window then
      write_to_opc_semantics opc_topic msg stage
    else ⟨stage, 0, .dropped⟩

/-! ## Operation traces

A successful pass of the property loop is a sequence of ensure-prim and
set-attribute operations that depends only on the topic and the decoded
message, never on the stage; idempotence of the loop reduces to
idempotence of such traces. -/

inductive Op where
  | ensureP (path : String) : Op
  | setA (path key val : String) : Op
deriving DecidableEq

def applyOp (stage : Stage) : Op → Stage
  | .ensureP p => ensureAt stage p "Scope"
  | .setA p k v => setPrimAttr stage p k v

def applyOps (stage : Stage) (ops : List Op) : Stage := ops.foldl applyOp stage

def primExists (p : String) (stage : Stage) : Bool := (alookup p stage).isSome

def attrVal (p k : String) (stage : Stage) : Option String :=
  match alookup p stage with
  | some pr => alookup k pr.attrs
  | none => none

def attrExists (p k : String) (stage : Stage) : Bool := (attrVal p k stage).isSome

def writesPK (p k : String) (ops : List Op) : Bool :=
  ops.any fun o =>
    match o with
    | .setA p' k' _ => p' = p && k' = k
    | .ensureP _ => false

/-- Well-formed traces: every set addresses a prim whose ensure came
earlier; the traces of a successful property loop are of this shape. -/

inductive OpsWF : List String → List Op → Prop where
  | nil (seen : List String) : OpsWF seen []
  | ensure (seen : List String) (p : String) (rest : List Op) :
      OpsWF (p :: seen) rest → OpsWF seen (.ensureP p :: rest)
  | set (seen : List String) (p k v : String) (rest : List Op) :
      p ∈ seen → OpsWF seen rest → OpsWF seen (.setA p k v :: rest)

def attrOps (p : String) (attrs : List (String × Json)) : List Op :=
  attrs.map (fun kv => Op.setA p kv.1 (pyStr kv.2))

/-- The trace of operations of one pass of the property loop, defined when
every property sanitizes and carries a mapping; it depends only on the
base path and the decoded properties, never on the stage. -/

def opsOfProps (base : String) : List (String × Json) → Option (List Op)
  | [] => some []
  | (property_id, property_data) :: rest =>
    let property_name : List Char := (splitOnChar ':' property_id.data).getLastD []
    let semantic_label := pyReplaceChar '.' '_' (pyReplaceChar ';' '_' ⟨property_name⟩)
    let semantic_path := base ++ "/" ++ semantic_label
    match sanitize_name semantic_path with
    | .error _ => none
    | .ok spath =>
      match property_data with
      | .obj attrs =>
        (opsOfProps base rest).map
          (fun os => Op.ensureP (withSlash spath) :: (attrOps (withSlash spath) attrs ++ os))
      | _ => none

/-! ## Properties of the sanitize_name pipeline -/

def isOutChar (c : Char) : Bool := pyIsLowerC c || pyIsDigitC c || c = '_' || c = '/'

def allowedMidChar (c : Char) : Bool :=
  pyIsAlnumC c || c = '_' || c = '/'

def pairFree (a b : Char) : List Char → Bool
  | [] => true
  | [_] => true
  | x :: y :: rest => (!(x = a && y = b)) && pairFree a b (y :: rest)

def endsWithSlash (s : String) : Bool := s.data.getLast? = some '/'

def noDoubleSlash (s : String) : Bool := pairFree '/' '/' s.data

/-- One segment of the spec claim's regular expression:
the fragment [a-z_][a-z0-9_]* . -/

def segOk : List Char → Bool
  | [] => false
  | c :: rest =>
    (pyIsLowerC c || c = '_') && rest.all (fun d => pyIsLowerC d || pyIsDigitC d || d = '_')

/-- The spec claim's regular expression for sanitized output, written
from the spec text: a slash-separated sequence of nonempty segments, each
starting with a lowercase letter or underscore. -/

def matchesSpecSanitizedShape (s : String) : Bool := (splitOnChar '/' s.data).all segOk

/-! ## The claims -/

theorem alookup_aupdate_self {α : Type} (k : String) (f : α → α) (l : List (String × α)) :
    alookup k (aupdate k f l) = (alookup k l).map f := by
  induction l with
  | nil => rfl
  | cons hd tl ih =>
    obtain ⟨k', v⟩ := hd
    by_cases h : k' = k <;> simp [alookup, aupdate, h, ih]

theorem alookup_aupdate_ne {α : Type} {k k' : String} (h : k' ≠ k) (f : α → α)
    (l : List (String × α)) : alookup k (aupdate k' f l) = alookup k l := by
  induction l with
  | nil => rfl
  | cons hd tl ih =>
    obtain ⟨k'', v⟩ := hd
    by_cases h2 : k'' = k'
    · subst h2
      simp [alookup, aupdate, h]
    · rw [show aupdate k' f ((k'', v) :: tl) = (k'', v) :: aupdate k' f tl by
        simp [aupdate, h2]]
      by_cases h3 : k'' = k <;> simp [alookup, h3, ih]

theorem aupdate_aupdate_self {α : Type} (k : String) (f g : α → α) (l : List (String × α)) :
    aupdate k f (aupdate k g l) = aupdate k (f ∘ g) l := by
  induction l with
  | nil => rfl
  | cons hd tl ih =>
    obtain ⟨k', v⟩ := hd
    by_cases h : k' = k <;> simp [aupdate, h, ih]

theorem aupdate_comm {α : Type} {k k' : String} (h : k ≠ k') (f g : α → α)
    (l : List (String × α)) :
    aupdate k f (aupdate k' g l) = aupdate k' g (aupdate k f l) := by
  induction l with
  | nil => rfl
  | cons hd tl ih =>
    obtain ⟨k'', v⟩ := hd
    by_cases h2 : k'' = k'
    · subst h2
      have h3 : ¬ k'' = k := fun hh => h (hh ▸ rfl)
      simp [aupdate, h3]
    · by_cases h3 : k'' = k
      · subst h3
        simp [aupdate, h2]
      · simp [aupdate, h2, h3, ih]

theorem aupdate_congr {α : Type} {k : String} {l : List (String × α)} {v : α}
    (h : alookup k l = some v) (f g : α → α) (hfg : f v = g v) :
    aupdate k f l = aupdate k g l := by
  induction l with
  | nil => simp [alookup] at h
  | cons hd tl ih =>
    obtain ⟨k', v'⟩ := hd
    by_cases h2 : k' = k
    · simp [alookup, h2] at h
      subst h
      simp [aupdate, h2, hfg]
    · simp [alookup, h2] at h
      simp [aupdate, h2, ih h]

theorem aupdate_eq_self {α : Type} {k : String} {l : List (String × α)} {v : α}
    (h : alookup k l = some v) (f : α → α) (hf : f v = v) : aupdate k f l = l := by
  induction l with
  | nil => rfl
  | cons hd tl ih =>
    obtain ⟨k', v'⟩ := hd
    by_cases h2 : k' = k
    · simp [alookup, h2] at h
      subst h
      simp [aupdate, h2, hf]
    · simp [alookup, h2] at h
      simp [aupdate, h2, ih h]

theorem aupdate_absent {α : Type} {k : String} {l : List (String × α)}
    (h : alookup k l = none) (f : α → α) : aupdate k f l = l := by
  induction l with
  | nil => rfl
  | cons hd tl ih =>
    obtain ⟨k', v'⟩ := hd
    by_cases h2 : k' = k
    · simp [alookup, h2] at h
    · simp [alookup, h2] at h
      simp [aupdate, h2, ih h]

theorem alookup_append_left {α : Type} {k : String} {l : List (String × α)} {v : α}
    (h : alookup k l = some v) (m : List (String × α)) : alookup k (l ++ m) = some v := by
  induction l with
  | nil => simp [alookup] at h
  | cons hd tl ih =>
    obtain ⟨k', v'⟩ := hd
    by_cases h2 : k' = k
    · simp [alookup, h2] at h ⊢
      exact h
    · simp [alookup, h2] at h ⊢
      exact ih h

theorem alookup_append_right {α : Type} {k : String} {l : List (String × α)}
    (h : alookup k l = none) (m : List (String × α)) : alookup k (l ++ m) = alookup k m := by
  induction l with
  | nil => rfl
  | cons hd tl ih =>
    obtain ⟨k', v'⟩ := hd
    by_cases h2 : k' = k
    · simp [alookup, h2] at h
    · simp [alookup, h2] at h ⊢
      exact ih h

theorem aupdate_append_left {α : Type} {k : String} {l : List (String × α)} {v : α}
    (h : alookup k l = some v) (f : α → α) (m : List (String × α)) :
    aupdate k f (l ++ m) = aupdate k f l ++ m := by
  induction l with
  | nil => simp [alookup] at h
  | cons hd tl ih =>
    obtain ⟨k', v'⟩ := hd
    by_cases h2 : k' = k
    · simp [aupdate, h2]
    · simp [alookup, h2] at h
      simp [aupdate, h2, ih h]

theorem aupdate_append_absent {α : Type} {k : String} {l : List (String × α)}
    (h : alookup k l = none) (f : α → α) (v : α) :
    aupdate k f (l ++ [(k, v)]) = l ++ [(k, f v)] := by
  induction l with
  | nil => simp [aupdate]
  | cons hd tl ih =>
    obtain ⟨k', v'⟩ := hd
    by_cases h2 : k' = k
    · simp [alookup, h2] at h
    · simp [alookup, h2] at h
      simp [aupdate, h2, ih h]

theorem alookup_isSome_aupdate {α : Type} (k k' : String) (f : α → α)
    (l : List (String × α)) :
    (alookup k (aupdate k' f l)).isSome = (alookup k l).isSome := by
  by_cases h : k' = k
  · subst h
    rw [alookup_aupdate_self]
    cases alookup k' l <;> rfl
  · rw [alookup_aupdate_ne h]

theorem char_toNat_ofNat {n : Nat} (h : n < 55296) : (Char.ofNat n).toNat = n := by
  unfold Char.ofNat
  rw [dif_pos (Or.inl h : Nat.isValidChar n)]
  simp [Char.ofNatAux, Char.toNat, UInt32.toNat]

theorem pyIsUpperC_iff (c : Char) : pyIsUpperC c = true ↔ 65 ≤ c.toNat ∧ c.toNat ≤ 90 := by
  simp [pyIsUpperC]

theorem pyIsLowerC_iff (c : Char) : pyIsLowerC c = true ↔ 97 ≤ c.toNat ∧ c.toNat ≤ 122 := by
  simp [pyIsLowerC]

theorem pyIsDigitC_iff (c : Char) : pyIsDigitC c = true ↔ 48 ≤ c.toNat ∧ c.toNat ≤ 57 := by
  simp [pyIsDigitC]

theorem pyLowerChar_toNat (c : Char) :
    (pyLowerChar c).toNat = if pyIsUpperC c then c.toNat + 32 else c.toNat := by
  unfold pyLowerChar
  by_cases h : pyIsUpperC c = true
  · have hb := (pyIsUpperC_iff c).mp h
    simp only [h, if_true]
    exact char_toNat_ofNat (by omega)
  · simp [h]

example : sanitize_name "Line:1" = .ok "line_1" := by decide

example : sanitize_name "iot/opc_delta/topic/Line_1//ns_2_s_Speed" =
    .ok "iot/opc_delta/topic/line_1/ns_2_s_speed" := by decide

example : sanitize_name "2x" = .ok "2x" := by decide

example : sanitize_name "a/1" = .ok "a/1" := by decide

example : sanitize_name "a/-" = .ok "a/" := by decide

example : sanitize_name "a/" = .ok "a" := by decide

example : sanitize_name " - " = .ok "_" := by decide

example : sanitize_name "/" = .error "Invalid name: /" := by decide

example : sanitize_name "a///b" = .ok "a//b" := by decide

example :
    write_to_opc_semantics "topic"
      (some (.obj [("DataSetWriterName", .str "Line:1"),
                   ("TimeStamp", .str "2024-01-01T00:09:00"),
                   ("Payload", .obj [("ns=2;s=Speed", .obj [("Value", .str "42")])])])) [] =
    ⟨[("/iot/opc_delta/topic/line_1/ns_2_s_speed", ⟨"Scope", [("Value", "42")]⟩)], 1,
      .applied⟩ := by decide

example :
    write_to_opc_semantics "topic"
      (some (.obj [("dataSetWriterName", .str "Line:1"),
                   ("TimeStamp", .str "2024-01-01T00:09:00"),
                   ("payload", .obj [("ns=2;s=Speed", .obj [("Value", .str "42")])])])) [] =
    ⟨[], 0, .failed "DataSetWriterName is missing from the payload."⟩ := by decide

example : parseTimestamp "2024-01-01T00:10:00" = some (rataDie 2024 1 1 * 86400 + 600) := by
  decide

example : isFresh (some "2024-01-01T00:00:00") ((parseTimestamp "2024-01-01T00:20:00").getD 0)
    DEFAULT_FRESHNESS_WINDOW = false := by decide

example : isFresh (some "2024-01-01T00:09:00") ((parseTimestamp "2024-01-01T00:10:00").getD 0)
    DEFAULT_FRESHNESS_WINDOW = true := by decide

/-! ## Algebra of the stage mutations

write_to_opc_semantics mutates the stage only through ensure_prim_exists
and the GetAttribute/CreateAttribute/Set sequence; the lemmas below give
the equational theory of those two operations that the idempotence claims
rest on. -/

theorem aupdate_ext {α : Type} (k : String) {f g : α → α} (h : ∀ x, f x = g x)
    (l : List (String × α)) : aupdate k f l = aupdate k g l := by
  induction l with
  | nil => rfl
  | cons hd tl ih =>
    obtain ⟨k', v⟩ := hd
    by_cases h2 : k' = k <;> simp [aupdate, h2, ih, h]

theorem sap_attrs_absent {pr : Prim} {k : String} (h : alookup k pr.attrs = none) (v : String) :
    setAttrOnPrim pr k v = ⟨pr.typ, pr.attrs ++ [(k, v)]⟩ := by
  simp [setAttrOnPrim, GetAttribute, h, CreateAttribute, setAttributeValue,
    aupdate_append_absent h]

theorem sap_attrs_present {pr : Prim} {k v0 : String} (h : alookup k pr.attrs = some v0)
    (v : String) : setAttrOnPrim pr k v = ⟨pr.typ, aupdate k (fun _ => v) pr.attrs⟩ := by
  simp [setAttrOnPrim, GetAttribute, h, setAttributeValue]

theorem alookup_sap_self (pr : Prim) (k v : String) :
    alookup k (setAttrOnPrim pr k v).attrs = some v := by
  cases h : alookup k pr.attrs with
  | none =>
    rw [sap_attrs_absent h]
    show alookup k (pr.attrs ++ [(k, v)]) = some v
    rw [alookup_append_right h]
    simp [alookup]
  | some v0 =>
    rw [sap_attrs_present h]
    show alookup k (aupdate k (fun _ => v) pr.attrs) = some v
    rw [alookup_aupdate_self, h]
    rfl

theorem alookup_sap_ne (pr : Prim) {k k' : String} (hne : k ≠ k') (v : String) :
    alookup k' (setAttrOnPrim pr k v).attrs = alookup k' pr.attrs := by
  cases h : alookup k pr.attrs with
  | none =>
    rw [sap_attrs_absent h]
    show alookup k' (pr.attrs ++ [(k, v)]) = alookup k' pr.attrs
    cases h2 : alookup k' pr.attrs with
    | some w => rw [alookup_append_left h2]
    | none =>
      rw [alookup_append_right h2]
      simp [alookup, hne]
  | some v0 =>
    rw [sap_attrs_present h]
    show alookup k' (aupdate k (fun _ => v) pr.attrs) = alookup k' pr.attrs
    exact alookup_aupdate_ne hne _ _

theorem sap_typ (pr : Prim) (k v : String) : (setAttrOnPrim pr k v).typ = pr.typ := by
  cases h : alookup k pr.attrs with
  | none => rw [sap_attrs_absent h]
  | some v0 => rw [sap_attrs_present h]

theorem sap_collapse (pr : Prim) (k v w : String) :
    setAttrOnPrim (setAttrOnPrim pr k v) k w = setAttrOnPrim pr k w := by
  cases h : alookup k pr.attrs with
  | none =>
    rw [sap_attrs_absent h v]
    have h2 : alookup k ((⟨pr.typ, pr.attrs ++ [(k, v)]⟩ : Prim).attrs) = some v := by
      show alookup k (pr.attrs ++ [(k, v)]) = some v
      rw [alookup_append_right h]
      simp [alookup]
    rw [sap_attrs_present h2 w, sap_attrs_absent h w]
    show (⟨pr.typ, aupdate k (fun _ => w) (pr.attrs ++ [(k, v)])⟩ : Prim) = _
    rw [aupdate_append_absent h]
  | some v0 =>
    rw [sap_attrs_present h v]
    have h2 : alookup k ((⟨pr.typ, aupdate k (fun _ => v) pr.attrs⟩ : Prim).attrs) = some v := by
      show alookup k (aupdate k (fun _ => v) pr.attrs) = some v
      rw [alookup_aupdate_self, h]
      rfl
    rw [sap_attrs_present h2 w, sap_attrs_present h w]
    show (⟨pr.typ, aupdate k (fun _ => w) (aupdate k (fun _ => v) pr.attrs)⟩ : Prim) = _
    rw [aupdate_aupdate_self]
    rfl

theorem sap_eq_self {pr : Prim} {k v : String} (h : alookup k pr.attrs = some v) :
    setAttrOnPrim pr k v = pr := by
  rw [sap_attrs_present h]
  rw [aupdate_eq_self h _ rfl]

theorem sap_comm {pr : Prim} {k k' : String} (hk : (alookup k pr.attrs).isSome = true)
    (hne : k' ≠ k) (v w : String) :
    setAttrOnPrim (setAttrOnPrim pr k v) k' w = setAttrOnPrim (setAttrOnPrim pr k' w) k v := by
  obtain ⟨v0, h⟩ : ∃ v0, alookup k pr.attrs = some v0 := by
    cases hx : alookup k pr.attrs with
    | none => rw [hx] at hk; simp at hk
    | some y => exact ⟨y, rfl⟩
  rw [sap_attrs_present h v]
  cases h2 : alookup k' pr.attrs with
  | some w0 =>
    have h3 : alookup k' ((⟨pr.typ, aupdate k (fun _ => v) pr.attrs⟩ : Prim).attrs) = some w0 := by
      show alookup k' (aupdate k (fun _ => v) pr.attrs) = some w0
      rw [alookup_aupdate_ne (Ne.symm hne)]
      exact h2
    rw [sap_attrs_present h3 w, sap_attrs_present h2 w]
    have h4 : alookup k ((⟨pr.typ, aupdate k' (fun _ => w) pr.attrs⟩ : Prim).attrs) = some v0 := by
      show alookup k (aupdate k' (fun _ => w) pr.attrs) = some v0
      rw [alookup_aupdate_ne hne]
      exact h
    rw [sap_attrs_present h4 v]
    show (⟨pr.typ, aupdate k' (fun _ => w) (aupdate k (fun _ => v) pr.attrs)⟩ : Prim) = _
    rw [aupdate_comm (Ne.symm hne)]
  | none =>
    have h3 : alookup k' ((⟨pr.typ, aupdate k (fun _ => v) pr.attrs⟩ : Prim).attrs) = none := by
      show alookup k' (aupdate k (fun _ => v) pr.attrs) = none
      rw [alookup_aupdate_ne (Ne.symm hne)]
      exact h2
    rw [sap_attrs_absent h3 w, sap_attrs_absent h2 w]
    have h4 : alookup k ((⟨pr.typ, pr.attrs ++ [(k', w)]⟩ : Prim).attrs) = some v0 := by
      show alookup k (pr.attrs ++ [(k', w)]) = some v0
      exact alookup_append_left h _
    rw [sap_attrs_present h4 v]
    show (⟨pr.typ, aupdate k (fun _ => v) pr.attrs ++ [(k', w)]⟩ : Prim) =
      ⟨pr.typ, aupdate k (fun _ => v) (pr.attrs ++ [(k', w)])⟩
    rw [aupdate_append_left h]

theorem applyOps_cons (stage : Stage) (o : Op) (ops : List Op) :
    applyOps stage (o :: ops) = applyOps (applyOp stage o) ops := rfl

theorem applyOps_append (stage : Stage) (a b : List Op) :
    applyOps stage (a ++ b) = applyOps (applyOps stage a) b := by
  induction a generalizing stage with
  | nil => rfl
  | cons o rest ih => simp [applyOps_cons, ih]

theorem ensureAt_present {stage : Stage} {p : String} (h : (alookup p stage).isSome = true)
    (typ : String) : ensureAt stage p typ = stage := by
  cases hx : alookup p stage with
  | none => rw [hx] at h; simp at h
  | some pr => simp [ensureAt, hx]

theorem ensureAt_absent {stage : Stage} {p : String} (h : alookup p stage = none)
    (typ : String) : ensureAt stage p typ = stage ++ [(p, ⟨typ, []⟩)] := by
  simp [ensureAt, h]

theorem primExists_ensureAt_self (stage : Stage) (p typ : String) :
    primExists p (ensureAt stage p typ) = true := by
  cases hx : alookup p stage with
  | none =>
    rw [ensureAt_absent hx]
    simp [primExists, alookup_append_right hx, alookup]
  | some pr => simp [ensureAt, hx, primExists]

theorem primExists_applyOp (o : Op) {p : String} {stage : Stage}
    (h : primExists p stage = true) : primExists p (applyOp stage o) = true := by
  cases o with
  | ensureP p' =>
    cases hx : alookup p' stage with
    | some pr => simp [applyOp, ensureAt, hx, h]
    | none =>
      obtain ⟨pr, hp⟩ : ∃ pr, alookup p stage = some pr := by
        cases hy : alookup p stage with
        | none => rw [primExists, hy] at h; simp at h
        | some pr => exact ⟨pr, rfl⟩
      simp [applyOp, ensureAt_absent hx, primExists, alookup_append_left hp]
  | setA p' k v =>
    simp [applyOp, setPrimAttr, primExists, alookup_isSome_aupdate]
    rw [primExists] at h
    exact h

theorem primExists_applyOps (ops : List Op) {p : String} {stage : Stage}
    (h : primExists p stage = true) : primExists p (applyOps stage ops) = true := by
  induction ops generalizing stage with
  | nil => exact h
  | cons o rest ih => exact ih (primExists_applyOp o h)

theorem attrVal_setPrimAttr_self {p : String} {stage : Stage}
    (h : primExists p stage = true) (k v : String) :
    attrVal p k (setPrimAttr stage p k v) = some v := by
  obtain ⟨pr, hp⟩ : ∃ pr, alookup p stage = some pr := by
    cases hy : alookup p stage with
    | none => rw [primExists, hy] at h; simp at h
    | some pr => exact ⟨pr, rfl⟩
  have : alookup p (setPrimAttr stage p k v) = some (setAttrOnPrim pr k v) := by
    rw [setPrimAttr, alookup_aupdate_self, hp]
    rfl
  rw [attrVal, this]
  exact alookup_sap_self pr k v

theorem attrExists_applyOp (o : Op) {p k : String} {stage : Stage}
    (h : attrExists p k stage = true) : attrExists p k (applyOp stage o) = true := by
  obtain ⟨pr, hp, hk⟩ : ∃ pr, alookup p stage = some pr ∧ (alookup k pr.attrs).isSome = true := by
    rw [attrExists, attrVal] at h
    cases hy : alookup p stage with
    | none => rw [hy] at h; simp at h
    | some pr =>
      rw [hy] at h
      exact ⟨pr, rfl, h⟩
  cases o with
  | ensureP p' =>
    cases hx : alookup p' stage with
    | some pr' => simp [applyOp, ensureAt, hx, attrExists, attrVal, hp, hk]
    | none =>
      simp [applyOp, ensureAt_absent hx, attrExists, attrVal, alookup_append_left hp, hk]
  | setA p' k' v =>
    by_cases hpp : p' = p
    · subst hpp
      have : alookup p' (setPrimAttr stage p' k' v) = some (setAttrOnPrim pr k' v) := by
        rw [setPrimAttr, alookup_aupdate_self, hp]
        rfl
      rw [applyOp, attrExists, attrVal, this]
      by_cases hkk : k' = k
      · subst hkk
        show (alookup k' (setAttrOnPrim pr k' v).attrs).isSome = true
        rw [alookup_sap_self]
        rfl
      · show (alookup k (setAttrOnPrim pr k' v).attrs).isSome = true
        rw [alookup_sap_ne pr (fun hh => hkk hh) v]
        exact hk
    · have : alookup p (setPrimAttr stage p' k' v) = some pr := by
        rw [setPrimAttr, alookup_aupdate_ne (fun hh => hpp hh), hp]
      rw [applyOp, attrExists, attrVal, this]
      show (alookup k pr.attrs).isSome = true
      exact hk

theorem attrExists_applyOps (ops : List Op) {p k : String} {stage : Stage}
    (h : attrExists p k stage = true) : attrExists p k (applyOps stage ops) = true := by
  induction ops generalizing stage with
  | nil => exact h
  | cons o rest ih => exact ih (attrExists_applyOp o h)

theorem attrVal_applyOp_preserved {o : Op} {p k : String} (stage : Stage)
    (hno : (match o with | .setA p' k' _ => p' = p && k' = k | .ensureP _ => false) = false) :
    attrVal p k (applyOp stage o) = attrVal p k stage := by
  cases o with
  | ensureP p' =>
    cases hx : alookup p' stage with
    | some pr' => simp [applyOp, ensureAt, hx]
    | none =>
      rw [applyOp, ensureAt_absent hx]
      by_cases hpp : p' = p
      · subst hpp
        rw [attrVal, attrVal, hx, alookup_append_right hx]
        simp [alookup]
      · rw [attrVal, attrVal]
        cases hy : alookup p stage with
        | some pr => rw [alookup_append_left hy]
        | none =>
          rw [alookup_append_right hy]
          simp [alookup, hpp]
  | setA p' k' v =>
    by_cases hpp : p' = p
    · subst hpp
      by_cases hkk : k' = k
      · subst hkk
        simp at hno
      · rw [applyOp, attrVal, attrVal, setPrimAttr, alookup_aupdate_self]
        cases hy : alookup p' stage with
        | none => rfl
        | some pr =>
          show alookup k (setAttrOnPrim pr k' v).attrs = alookup k pr.attrs
          exact alookup_sap_ne pr hkk v
    · rw [applyOp, attrVal, attrVal, setPrimAttr, alookup_aupdate_ne (fun hh => hpp hh)]

theorem attrVal_applyOps_preserved {p k : String} :
    ∀ (ops : List Op) (stage : Stage), writesPK p k ops = false →
      attrVal p k (applyOps stage ops) = attrVal p k stage := by
  intro ops
  induction ops with
  | nil =>
    intro stage _
    rfl
  | cons o rest ih =>
    intro stage hno
    rw [writesPK, List.any_cons, Bool.or_eq_false_iff] at hno
    rw [applyOps_cons, ih _ hno.2, attrVal_applyOp_preserved stage hno.1]

theorem applyOp_ensure_noop {p : String} {stage : Stage} (h : primExists p stage = true) :
    applyOp stage (.ensureP p) = stage := ensureAt_present h "Scope"

theorem applyOp_set_noop {p k v : String} {stage : Stage} (h : attrVal p k stage = some v) :
    applyOp stage (.setA p k v) = stage := by
  obtain ⟨pr, hp, hk⟩ : ∃ pr, alookup p stage = some pr ∧ alookup k pr.attrs = some v := by
    rw [attrVal] at h
    cases hy : alookup p stage with
    | none => rw [hy] at h; exact absurd h (by simp)
    | some pr =>
      rw [hy] at h
      exact ⟨pr, rfl, h⟩
  rw [applyOp, setPrimAttr]
  exact aupdate_eq_self hp _ (sap_eq_self hk)

theorem set_ensure_comm {p k : String} {stage : Stage} (hex : attrExists p k stage = true)
    (p' : String) (v : String) :
    applyOp (applyOp stage (.setA p k v)) (.ensureP p') =
    applyOp (applyOp stage (.ensureP p')) (.setA p k v) := by
  obtain ⟨pr, hp⟩ : ∃ pr, alookup p stage = some pr := by
    rw [attrExists, attrVal] at hex
    cases hy : alookup p stage with
    | none => rw [hy] at hex; simp at hex
    | some pr => exact ⟨pr, rfl⟩
  cases hx : alookup p' stage with
  | some pr' =>
    have h1 : applyOp stage (.ensureP p') = stage := by
      rw [applyOp]
      exact ensureAt_present (by rw [hx]; rfl) "Scope"
    have h2 : applyOp (applyOp stage (.setA p k v)) (.ensureP p') =
        applyOp stage (.setA p k v) := by
      rw [show applyOp stage (.setA p k v) = setPrimAttr stage p k v from rfl]
      rw [applyOp]
      refine ensureAt_present ?_ "Scope"
      rw [setPrimAttr, alookup_isSome_aupdate, hx]
      rfl
    rw [h1, h2]
  | none =>
    have hpp : p' ≠ p := fun hh => by rw [hh, hp] at hx; exact Option.noConfusion hx
    have h1 : applyOp stage (.ensureP p') = stage ++ [(p', ⟨"Scope", []⟩)] := by
      rw [applyOp]
      exact ensureAt_absent hx "Scope"
    have h2 : alookup p' (setPrimAttr stage p k v) = none := by
      rw [setPrimAttr, alookup_aupdate_ne (fun hh => hpp hh.symm) _ _]
      · exact hx
    rw [h1]
    rw [show applyOp stage (.setA p k v) = setPrimAttr stage p k v from rfl]
    rw [show applyOp (setPrimAttr stage p k v) (.ensureP p') =
        ensureAt (setPrimAttr stage p k v) p' "Scope" from rfl]
    rw [ensureAt_absent h2 "Scope"]
    rw [show applyOp (stage ++ [(p', ⟨"Scope", []⟩)]) (.setA p k v) =
        setPrimAttr (stage ++ [(p', ⟨"Scope", []⟩)]) p k v from rfl]
    rw [setPrimAttr, setPrimAttr, aupdate_append_left hp]

theorem set_set_collapse (stage : Stage) (p k v w : String) :
    applyOp (applyOp stage (.setA p k v)) (.setA p k w) = applyOp stage (.setA p k w) := by
  show setPrimAttr (setPrimAttr stage p k v) p k w = setPrimAttr stage p k w
  rw [setPrimAttr, setPrimAttr, setPrimAttr, aupdate_aupdate_self]
  exact aupdate_ext p (fun pr => sap_collapse pr k v w) stage

theorem set_set_comm {p k : String} {stage : Stage} (hex : attrExists p k stage = true)
    {p' k' : String} (hne : (decide (p' = p) && decide (k' = k)) = false) (v w : String) :
    applyOp (applyOp stage (.setA p k v)) (.setA p' k' w) =
    applyOp (applyOp stage (.setA p' k' w)) (.setA p k v) := by
  obtain ⟨pr, hp, hk⟩ : ∃ pr, alookup p stage = some pr ∧ (alookup k pr.attrs).isSome = true := by
    rw [attrExists, attrVal] at hex
    cases hy : alookup p stage with
    | none => rw [hy] at hex; simp at hex
    | some pr =>
      rw [hy] at hex
      exact ⟨pr, rfl, hex⟩
  show setPrimAttr (setPrimAttr stage p k v) p' k' w =
    setPrimAttr (setPrimAttr stage p' k' w) p k v
  by_cases hpp : p' = p
  · subst hpp
    by_cases hkk : k' = k
    · subst hkk
      simp at hne
    · rw [setPrimAttr, setPrimAttr, setPrimAttr, setPrimAttr, aupdate_aupdate_self,
        aupdate_aupdate_self]
      refine aupdate_congr hp _ _ ?_
      show setAttrOnPrim (setAttrOnPrim pr k v) k' w = setAttrOnPrim (setAttrOnPrim pr k' w) k v
      exact sap_comm hk (fun hh => hkk hh) v w
  · rw [setPrimAttr, setPrimAttr, setPrimAttr, setPrimAttr]
    exact aupdate_comm (fun hh => hpp hh) _ _ stage

theorem applyOps_set_absorb {p k : String} :
    ∀ (ops : List Op) (u : Stage) (v : String), attrExists p k u = true →
      writesPK p k ops = true →
      applyOps (applyOp u (.setA p k v)) ops = applyOps u ops := by
  intro ops
  induction ops with
  | nil =>
    intro u v _ hw
    simp [writesPK] at hw
  | cons o rest ih =>
    intro u v hex hw
    cases o with
    | ensureP p' =>
      rw [applyOps_cons, applyOps_cons, set_ensure_comm hex p' v]
      rw [writesPK, List.any_cons] at hw
      simp only [Bool.false_or] at hw
      exact ih (applyOp u (.ensureP p')) v (attrExists_applyOp _ hex) hw
    | setA p' k' w =>
      by_cases hmatch : (decide (p' = p) && decide (k' = k)) = true
      · have hpp : p' = p := by
          cases Bool.and_eq_true_iff.mp hmatch with
          | intro h1 h2 => exact of_decide_eq_true h1
        have hkk : k' = k := by
          cases Bool.and_eq_true_iff.mp hmatch with
          | intro h1 h2 => exact of_decide_eq_true h2
        subst hpp
        subst hkk
        rw [applyOps_cons, applyOps_cons, set_set_collapse]
      · have hne : (decide (p' = p) && decide (k' = k)) = false :=
          Bool.not_eq_true _ ▸ (Bool.eq_false_iff.mpr (fun hh => hmatch hh))
        rw [applyOps_cons, applyOps_cons, set_set_comm hex hne v w]
        have hw2 : writesPK p k rest = true := by
          rw [writesPK, List.any_cons] at hw
          cases Bool.or_eq_true_iff.mp hw with
          | inl h1 => exact absurd h1 hmatch
          | inr h1 => exact h1
        exact ih (applyOp u (.setA p' k' w)) v (attrExists_applyOp _ hex) hw2

theorem applyOps_idem_wf :
    ∀ (ops : List Op) (seen : List String) (s : Stage), OpsWF seen ops →
      (∀ p ∈ seen, primExists p s = true) →
      applyOps (applyOps s ops) ops = applyOps s ops := by
  intro ops
  induction ops with
  | nil =>
    intro seen s _ _
    rfl
  | cons o rest ih =>
    intro seen s hwf hseen
    cases hwf with
    | ensure seen p rest hwf' =>
      rw [applyOps_cons]
      set s1 := applyOp s (Op.ensureP p) with hs1
      have hseen1 : ∀ q ∈ p :: seen, primExists q s1 = true := by
        intro q hq
        cases List.mem_cons.mp hq with
        | inl hh =>
          subst hh
          exact primExists_ensureAt_self s q "Scope"
        | inr hh => exact primExists_applyOp _ (hseen q hh)
      have hpt : primExists p (applyOps s1 rest) = true :=
        primExists_applyOps rest (hseen1 p (List.mem_cons_self p seen))
      rw [applyOps_cons, applyOp_ensure_noop hpt]
      exact ih (p :: seen) s1 hwf' hseen1
    | set seen p k v rest hp hwf' =>
      rw [applyOps_cons]
      set s1 := applyOp s (Op.setA p k v) with hs1
      have hv1 : attrVal p k s1 = some v := attrVal_setPrimAttr_self (hseen p hp) k v
      have hex1 : attrExists p k s1 = true := by
        rw [attrExists, hv1]
        rfl
      have hseen1 : ∀ q ∈ seen, primExists q s1 = true := by
        intro q hq
        exact primExists_applyOp _ (hseen q hq)
      have hext : attrExists p k (applyOps s1 rest) = true :=
        attrExists_applyOps rest hex1
      by_cases hw : writesPK p k rest = true
      · rw [applyOps_cons, applyOps_set_absorb rest (applyOps s1 rest) v hext hw]
        exact ih seen s1 hwf' hseen1
      · have hw' : writesPK p k rest = false := Bool.eq_false_iff.mpr hw
        have hvt : attrVal p k (applyOps s1 rest) = some v := by
          rw [attrVal_applyOps_preserved rest s1 hw']
          exact hv1
        rw [applyOps_cons, applyOp_set_noop hvt]
        exact ih seen s1 hwf' hseen1

theorem foldl_set_eq_applyOps (p : String) (attrs : List (String × Json)) (st : Stage) :
    attrs.foldl (fun st kv => setPrimAttr st p kv.1 (pyStr kv.2)) st =
    applyOps st (attrOps p attrs) := by
  induction attrs generalizing st with
  | nil => rfl
  | cons kv rest ih =>
    simp only [List.foldl_cons, attrOps, List.map_cons, applyOps_cons, ih]
    rfl

theorem processProps_of_ops (base : String) :
    ∀ (props : List (String × Json)) (ops : List Op),
      opsOfProps base props = some ops →
      ∀ (stage : Stage), processProps stage base props = (applyOps stage ops, none) := by
  intro props
  induction props with
  | nil =>
    intro ops h stage
    simp only [opsOfProps, Option.some.injEq] at h
    subst h
    rfl
  | cons hd rest ih =>
    obtain ⟨property_id, property_data⟩ := hd
    intro ops h stage
    simp only [opsOfProps] at h
    cases hs : sanitize_name (base ++ "/" ++
        pyReplaceChar '.' '_' (pyReplaceChar ';' '_'
          ⟨(splitOnChar ':' property_id.data).getLastD []⟩)) with
    | error e => rw [hs] at h; exact Option.noConfusion h
    | ok spath =>
      rw [hs] at h
      cases property_data with
      | obj attrs =>
        cases hrest : opsOfProps base rest with
        | none => rw [hrest] at h; exact Option.noConfusion h
        | some os =>
          rw [hrest] at h
          have h2 : Op.ensureP (withSlash spath) :: (attrOps (withSlash spath) attrs ++ os) =
              ops := Option.some.inj h
          subst h2
          show processProps stage base ((property_id, Json.obj attrs) :: rest) = _
          simp only [processProps, hs]
          rw [foldl_set_eq_applyOps]
          rw [ih os hrest]
          rw [applyOps_cons, applyOps_append]
          rfl
      | null => exact Option.noConfusion h
      | bool b => exact Option.noConfusion h
      | num n => exact Option.noConfusion h
      | str s0 => exact Option.noConfusion h
      | arr xs => exact Option.noConfusion h

theorem processProps_success_ops (base : String) :
    ∀ (props : List (String × Json)) (stage s' : Stage),
      processProps stage base props = (s', none) →
      ∃ ops, opsOfProps base props = some ops := by
  intro props
  induction props with
  | nil =>
    intro stage s' _
    exact ⟨[], rfl⟩
  | cons hd rest ih =>
    obtain ⟨property_id, property_data⟩ := hd
    intro stage s' h
    simp only [processProps] at h
    cases hs : sanitize_name (base ++ "/" ++
        pyReplaceChar '.' '_' (pyReplaceChar ';' '_'
          ⟨(splitOnChar ':' property_id.data).getLastD []⟩)) with
    | error e =>
      rw [hs] at h
      simp at h
    | ok spath =>
      rw [hs] at h
      cases property_data with
      | obj attrs =>
        obtain ⟨os, hos⟩ := ih _ _ h
        refine ⟨Op.ensureP (withSlash spath) :: (attrOps (withSlash spath) attrs ++ os), ?_⟩
        simp only [opsOfProps, hs, hos]
        rfl
      | null => simp at h
      | bool b => simp at h
      | num n => simp at h
      | str s0 => simp at h
      | arr xs => simp at h

theorem opsWF_attrOps (p : String) (seen : List String) (hp : p ∈ seen) :
    ∀ (attrs : List (String × Json)) (os : List Op), OpsWF seen os →
      OpsWF seen (attrOps p attrs ++ os) := by
  intro attrs
  induction attrs with
  | nil =>
    intro os hos
    exact hos
  | cons kv rest ih =>
    intro os hos
    exact OpsWF.set seen p kv.1 (pyStr kv.2) _ hp (ih os hos)

theorem opsWF_mono {seen seen' : List String} (hsub : ∀ p ∈ seen, p ∈ seen') :
    ∀ {ops : List Op}, OpsWF seen ops → OpsWF seen' ops := by
  intro ops h
  induction h generalizing seen' with
  | nil => exact OpsWF.nil seen'
  | ensure seen2 p rest _ ih =>
    refine OpsWF.ensure seen' p rest (ih ?_)
    intro q hq
    cases List.mem_cons.mp hq with
    | inl hh => exact hh ▸ List.mem_cons_self p seen'
    | inr hh => exact List.mem_cons_of_mem p (hsub q hh)
  | set seen2 p k v rest hp _ ih =>
    exact OpsWF.set seen' p k v rest (hsub p hp) (ih hsub)

theorem opsOfProps_wf (base : String) :
    ∀ (props : List (String × Json)) (ops : List Op) (seen : List String),
      opsOfProps base props = some ops → OpsWF seen ops := by
  intro props
  induction props with
  | nil =>
    intro ops seen h
    simp only [opsOfProps, Option.some.injEq] at h
    subst h
    exact OpsWF.nil seen
  | cons hd rest ih =>
    obtain ⟨property_id, property_data⟩ := hd
    intro ops seen h
    simp only [opsOfProps] at h
    cases hs : sanitize_name (base ++ "/" ++
        pyReplaceChar '.' '_' (pyReplaceChar ';' '_'
          ⟨(splitOnChar ':' property_id.data).getLastD []⟩)) with
    | error e => rw [hs] at h; exact Option.noConfusion h
    | ok spath =>
      rw [hs] at h
      cases property_data with
      | obj attrs =>
        cases hrest : opsOfProps base rest with
        | none => rw [hrest] at h; exact Option.noConfusion h
        | some os =>
          rw [hrest] at h
          have h2 : Op.ensureP (withSlash spath) :: (attrOps (withSlash spath) attrs ++ os) =
              ops := Option.some.inj h
          subst h2
          refine OpsWF.ensure seen (withSlash spath) _ ?_
          refine opsWF_attrOps (withSlash spath) _ (List.mem_cons_self _ _) attrs os ?_
          exact ih os _ hrest
      | null => exact Option.noConfusion h
      | bool b => exact Option.noConfusion h
      | num n => exact Option.noConfusion h
      | str s0 => exact Option.noConfusion h
      | arr xs => exact Option.noConfusion h

/-- The property loop is idempotent on success: reprocessing the same
properties from the stage it produced leaves that stage unchanged. -/

theorem processProps_idem (base : String) (props : List (String × Json)) (stage s' : Stage)
    (h : processProps stage base props = (s', none)) :
    processProps s' base props = (s', none) := by
  obtain ⟨ops, hops⟩ := processProps_success_ops base props stage s' h
  have heval := processProps_of_ops base props ops hops stage
  rw [h] at heval
  have hst : applyOps stage ops = s' := by
    have := congrArg Prod.fst heval
    exact this.symm
  have hwf : OpsWF [] ops := opsOfProps_wf base props ops [] hops
  have hidem := applyOps_idem_wf ops [] stage hwf (by intro p hp; cases hp)
  rw [hst] at hidem
  rw [processProps_of_ops base props ops hops s', hidem]

theorem write_obj_eval (topic : String) (fields : List (String × Json)) (wn : String)
    (props : List (String × Json)) (s : Stage)
    (ht : truthy (Json.obj fields) = true)
    (hgw : getWriterField fields = some wn)
    (hwn : ¬ pyReplaceChar ' ' '_' (pyReplaceChar ':' '_' wn) = "")
    (hpl : alookup "Payload" fields = some (Json.obj props)) :
    write_to_opc_semantics topic (some (Json.obj fields)) s =
      (match processProps s ("iot/opc_delta/" ++ topic ++ "/" ++
          pyReplaceChar ' ' '_' (pyReplaceChar ':' '_' wn) ++ "/") props with
       | (st, none) => ⟨st, 1, .applied⟩
       | (st, some e) => ⟨st, 0, .failed e⟩) := by
  cases hpp : processProps s ("iot/opc_delta/" ++ topic ++ "/" ++
      pyReplaceChar ' ' '_' (pyReplaceChar ':' '_' wn) ++ "/") props with
  | mk st e =>
    cases e with
    | none => simp [write_to_opc_semantics, ht, hgw, hwn, hpl, hpp]
    | some err => simp [write_to_opc_semantics, ht, hgw, hwn, hpl, hpp]

theorem write_applied_inv {topic : String} {payload : Json} {s s' : Stage} {c : Nat}
    (h : write_to_opc_semantics topic (some payload) s = ⟨s', c, .applied⟩) :
    ∃ fields wn props,
      payload = Json.obj fields ∧
      truthy (Json.obj fields) = true ∧
      getWriterField fields = some wn ∧
      ¬ pyReplaceChar ' ' '_' (pyReplaceChar ':' '_' wn) = "" ∧
      alookup "Payload" fields = some (Json.obj props) ∧
      processProps s ("iot/opc_delta/" ++ topic ++ "/" ++
        pyReplaceChar ' ' '_' (pyReplaceChar ':' '_' wn) ++ "/") props = (s', none) ∧
      c = 1 := by
  cases payload with
  | null =>
    exfalso
    simp only [write_to_opc_semantics] at h
    split at h <;> simp at h
  | bool b =>
    exfalso
    simp only [write_to_opc_semantics] at h
    split at h <;> simp at h
  | num n =>
    exfalso
    simp only [write_to_opc_semantics] at h
    split at h <;> simp at h
  | str s0 =>
    exfalso
    simp only [write_to_opc_semantics] at h
    split at h <;> simp at h
  | arr xs =>
    exfalso
    simp only [write_to_opc_semantics] at h
    split at h <;> simp at h
  | obj fields =>
    simp only [write_to_opc_semantics] at h
    split at h
    · simp at h
    · rename_i ht
      have ht' : truthy (Json.obj fields) = true := by
        cases hb : truthy (Json.obj fields) with
        | false => exact absurd hb ht
        | true => rfl
      split at h
      · simp at h
      · rename_i wn hgw
        split at h
        · simp at h
        · rename_i hwn
          split at h
          · simp at h
          · rename_i props hpl
            split at h
            · rename_i st hpp
              simp only [WriteEffect.mk.injEq] at h
              obtain ⟨h1, h2, _⟩ := h
              subst h1
              exact ⟨fields, wn, props, rfl, ht', hgw, hwn, hpl, hpp, h2.symm⟩
            · rename_i st err hpp
              simp at h
          · rename_i val hne hpl
            simp at h

theorem write_applied_idem (topic : String) (msg : Option Json) (s s' : Stage)
    (h : write_to_opc_semantics topic msg s = ⟨s', 1, .applied⟩) :
    write_to_opc_semantics topic msg s' = ⟨s', 1, .applied⟩ := by
  cases msg with
  | none => simp [write_to_opc_semantics] at h
  | some payload =>
    obtain ⟨fields, wn, props, hpay, ht, hgw, hwn, hpl, hpp, _⟩ := write_applied_inv h
    subst hpay
    rw [write_obj_eval topic fields wn props s' ht hgw hwn hpl]
    rw [processProps_idem _ props s s' hpp]

theorem write_commits_eq (topic : String) (msg : Option Json) (s : Stage) :
    (write_to_opc_semantics topic msg s).commits =
      (if (write_to_opc_semantics topic msg s).outcome = .applied then 1 else 0) := by
  cases msg with
  | none => rfl
  | some payload =>
    cases payload <;> simp only [write_to_opc_semantics] <;> (repeat' split) <;> simp_all

theorem ingest_commits_eq (now window : Nat) (topic : String) (msg : Option Json) (s : Stage) :
    (ingest_with_staleness now window topic msg s).commits =
      (if (ingest_with_staleness now window topic msg s).outcome = .applied then 1 else 0) := by
  cases msg with
  | none => rfl
  | some j =>
    simp only [ingest_with_staleness]
    split
    · exact write_commits_eq topic (some j) s
    · rfl

theorem processProps_append (base : String) :
    ∀ (xs ys : List (String × Json)) (stage : Stage),
      processProps stage base (xs ++ ys) =
        (match processProps stage base xs with
         | (s1, none) => processProps s1 base ys
         | (s1, some e) => (s1, some e)) := by
  intro xs
  induction xs with
  | nil =>
    intro ys stage
    rfl
  | cons hd rest ih =>
    obtain ⟨pid, pdata⟩ := hd
    intro ys stage
    simp only [List.cons_append, processProps]
    cases hs : sanitize_name (base ++ "/" ++
        pyReplaceChar '.' '_' (pyReplaceChar ';' '_'
          ⟨(splitOnChar ':' pid.data).getLastD []⟩)) with
    | error e => rfl
    | ok spath =>
      cases pdata with
      | obj attrs => exact ih ys _
      | null => rfl
      | bool b => rfl
      | num n => rfl
      | str s0 => rfl
      | arr zs => rfl

theorem pairFree_cons (a b x : Char) (m : List Char) :
    pairFree a b (x :: m) =
      ((match m.head? with
        | some y => !(x = a && y = b)
        | none => true) && pairFree a b m) := by
  cases m with
  | nil => simp [pairFree]
  | cons y rest => simp [pairFree]

theorem pairFree_tail {a b x : Char} {m : List Char} (h : pairFree a b (x :: m) = true) :
    pairFree a b m = true := by
  rw [pairFree_cons] at h
  exact (Bool.and_eq_true_iff.mp h).2

theorem pairFree_head {a b x y : Char} {m : List Char}
    (h : pairFree a b (x :: y :: m) = true) : (x = a && y = b) = false := by
  rw [pairFree_cons] at h
  have := (Bool.and_eq_true_iff.mp h).1
  simp only [List.head?_cons] at this
  cases hxy : (x = a && y = b)
  · rfl
  · rw [hxy] at this
    simp at this

theorem iuGo_false_cons (c : Char) (l : List Char) :
    iuGo false (c :: l) = c :: iuGo (c = '/') l := by
  simp [iuGo]

theorem iuGo_true_cons_digit {c : Char} (hd : pyIsDigitC c = true) (l : List Char) :
    iuGo true (c :: l) = '_' :: c :: iuGo false l := by
  simp [iuGo, hd]

theorem iuGo_true_cons_nondigit {c : Char} (hd : pyIsDigitC c = false) (l : List Char) :
    iuGo true (c :: l) = c :: iuGo (c = '/') l := by
  simp [iuGo, hd]

theorem csuGo_false_cons (c : Char) (l : List Char) :
    csuGo false (c :: l) = (if c = '/' then '/' :: csuGo true l else c :: csuGo false l) := by
  simp [csuGo]

theorem csuGo_true_underscore (l : List Char) : csuGo true ('_' :: l) = csuGo true l := by
  simp [csuGo]

theorem csuGo_true_cons_ne {c : Char} (hc : ¬ c = '_') (l : List Char) :
    csuGo true (c :: l) = (if c = '/' then '/' :: csuGo true l else c :: csuGo false l) := by
  simp [csuGo, hc]

theorem cds_cons_ne {c : Char} (hc : ¬ c = '/') (l : List Char) :
    collapseDoubleSlashes (c :: l) = c :: collapseDoubleSlashes l := by
  cases l with
  | nil => simp [collapseDoubleSlashes, hc]
  | cons d rest => simp [collapseDoubleSlashes, hc]

theorem cds_slash_slash (l : List Char) :
    collapseDoubleSlashes ('/' :: '/' :: l) = '/' :: collapseDoubleSlashes l := rfl

theorem cds_slash_ne {c : Char} (hc : ¬ c = '/') (l : List Char) :
    collapseDoubleSlashes ('/' :: c :: l) = '/' :: collapseDoubleSlashes (c :: l) := by
  simp [collapseDoubleSlashes, hc]

theorem cds_single_slash : collapseDoubleSlashes ['/'] = ['/'] := rfl

theorem cds_head (l : List Char) :
    (collapseDoubleSlashes l).head? = l.head? := by
  cases l with
  | nil => rfl
  | cons c rest =>
    by_cases hc : c = '/'
    · subst hc
      cases rest with
      | nil => rfl
      | cons d rest2 =>
        by_cases hd : d = '/'
        · subst hd
          rw [cds_slash_slash]
          rfl
        · rw [cds_slash_ne hd]
          rfl
    · rw [cds_cons_ne hc]
      rfl

theorem csuGo_false_head (c : Char) (l : List Char) :
    (csuGo false (c :: l)).head? = some c := by
  rw [csuGo_false_cons]
  by_cases hc : c = '/'
  · subst hc
    simp
  · simp [hc]

theorem dropWhile_prefix_exists {α : Type} (p : α → Bool) :
    ∀ (l : List α), ∃ u, u ++ l.dropWhile p = l := by
  intro l
  induction l with
  | nil => exact ⟨[], rfl⟩
  | cons a rest ih =>
    by_cases h : p a
    · obtain ⟨u, hu⟩ := ih
      exact ⟨a :: u, by simp [List.dropWhile_cons, h, hu]⟩
    · exact ⟨[], by simp [List.dropWhile_cons, h]⟩

theorem rstripBy_suffix_exists (p : Char → Bool) (l : List Char) :
    ∃ t, rstripBy p l ++ t = l := by
  obtain ⟨u, hu⟩ := dropWhile_prefix_exists p l.reverse
  refine ⟨u.reverse, ?_⟩
  have := congrArg List.reverse hu
  rw [List.reverse_append, List.reverse_reverse] at this
  exact this

theorem lstripBy_cons_of_neg {p : Char → Bool} {c : Char} (h : p c = false) (l : List Char) :
    lstripBy p (c :: l) = c :: l := by
  simp [lstripBy, List.dropWhile_cons, h]

theorem rstripBy_cons_of_neg {p : Char → Bool} {c : Char} (h : p c = false) (l : List Char) :
    rstripBy p (c :: l) = c :: rstripBy p l := by
  unfold rstripBy
  rw [List.reverse_cons, List.dropWhile_append]
  by_cases he : (l.reverse.dropWhile p).isEmpty
  · rw [if_pos he]
    rw [List.isEmpty_iff] at he
    simp [List.dropWhile_cons, h, he]
  · rw [if_neg he]
    rw [List.reverse_append]
    rfl

theorem mem_lstripBy {p : Char → Bool} {l : List Char} {c : Char}
    (h : c ∈ lstripBy p l) : c ∈ l := by
  obtain ⟨u, hu⟩ := dropWhile_prefix_exists p l
  rw [← hu]
  exact List.mem_append_right u h

theorem mem_rstripBy {p : Char → Bool} {l : List Char} {c : Char}
    (h : c ∈ rstripBy p l) : c ∈ l := by
  obtain ⟨t, ht⟩ := rstripBy_suffix_exists p l
  rw [← ht]
  exact List.mem_append_left t h

theorem head_lstripBy {p : Char → Bool} {l : List Char} {c : Char}
    (h : (lstripBy p l).head? = some c) : p c = false := by
  induction l with
  | nil => simp [lstripBy, List.dropWhile] at h
  | cons a rest ih =>
    by_cases hp : p a
    · rw [lstripBy, List.dropWhile_cons, if_pos hp] at h
      exact ih h
    · rw [lstripBy_cons_of_neg (Bool.eq_false_iff.mpr hp)] at h
      simp at h
      rw [← h]
      exact Bool.eq_false_iff.mpr hp

theorem head_rstripBy {p : Char → Bool} {l : List Char}
    (hne : rstripBy p l ≠ []) : (rstripBy p l).head? = l.head? := by
  obtain ⟨t, ht⟩ := rstripBy_suffix_exists p l
  conv_rhs => rw [← ht]
  cases hr : rstripBy p l with
  | nil => exact absurd hr hne
  | cons a rest => simp [hr]

theorem norm_char_allowed (c : Char) :
    allowedMidChar (hyphenToUnderscore (sub1char c)) = true := by
  by_cases h : (pyIsAlnumC c || c = '/' || c = '_' || c = '-') = true
  · rw [sub1char, if_pos h]
    by_cases hd : c = '-'
    · simp [hyphenToUnderscore, hd, allowedMidChar]
    · rw [hyphenToUnderscore, if_neg hd]
      simp only [Bool.or_eq_true, decide_eq_true_eq] at h
      rcases h with ((ha | hs) | hu) | hh
      · simp [allowedMidChar, ha]
      · simp [allowedMidChar, hs]
      · simp [allowedMidChar, hu]
      · exact absurd hh hd
  · rw [sub1char, if_neg h]
    simp [hyphenToUnderscore, allowedMidChar]

theorem iuGo_chars :
    ∀ (l : List Char) (b : Bool), (∀ c ∈ l, allowedMidChar c = true) →
      ∀ c ∈ iuGo b l, allowedMidChar c = true := by
  intro l
  induction l with
  | nil =>
    intro b _ c hc
    simp [iuGo] at hc
  | cons d rest ih =>
    intro b h c hc
    by_cases hcond : (b && pyIsDigitC d) = true
    · rw [show iuGo b (d :: rest) = '_' :: d :: iuGo false rest by simp [iuGo, hcond]] at hc
      rcases List.mem_cons.mp hc with hc1 | hc'
      · rw [hc1]
        decide
      · rcases List.mem_cons.mp hc' with hc2 | hc3
        · rw [hc2]
          exact h d (by simp)
        · exact ih false (fun c hc => h c (by simp [hc])) c hc3
    · rw [show iuGo b (d :: rest) = d :: iuGo (d = '/') rest by
        simp [iuGo, Bool.eq_false_iff.mpr hcond]] at hc
      rcases List.mem_cons.mp hc with hc1 | hc2
      · rw [hc1]
        exact h d (by simp)
      · exact ih (d = '/') (fun c hc => h c (by simp [hc])) c hc2

theorem csuGo_chars :
    ∀ (l : List Char) (b : Bool), (∀ c ∈ l, allowedMidChar c = true) →
      ∀ c ∈ csuGo b l, allowedMidChar c = true := by
  intro l
  induction l with
  | nil =>
    intro b _ c hc
    simp [csuGo] at hc
  | cons d rest ih =>
    intro b h c hc
    by_cases h1 : (b && d = '_') = true
    · rw [show csuGo b (d :: rest) = csuGo true rest by simp [csuGo, h1]] at hc
      exact ih true (fun c hc => h c (by simp [hc])) c hc
    · by_cases h2 : d = '/'
      · rw [show csuGo b (d :: rest) = '/' :: csuGo true rest by
          simp [csuGo, Bool.eq_false_iff.mpr h1, h2]] at hc
        rcases List.mem_cons.mp hc with hc1 | hc2
        · rw [hc1]
          decide
        · exact ih true (fun c hc => h c (by simp [hc])) c hc2
      · rw [show csuGo b (d :: rest) = d :: csuGo false rest by
          simp [csuGo, Bool.eq_false_iff.mpr h1, h2]] at hc
        rcases List.mem_cons.mp hc with hc1 | hc2
        · rw [hc1]
          exact h d (by simp)
        · exact ih false (fun c hc => h c (by simp [hc])) c hc2

theorem cds_chars (P : Char → Bool) :
    ∀ (l : List Char), (∀ c ∈ l, P c = true) → P '/' = true →
      ∀ c ∈ collapseDoubleSlashes l, P c = true := by
  intro l
  induction l using collapseDoubleSlashes.induct with
  | case1 =>
    intro _ _ c hc
    simp [collapseDoubleSlashes] at hc
  | case2 rest ih =>
    intro h hs c hc
    rw [cds_slash_slash] at hc
    rcases List.mem_cons.mp hc with hc1 | hc2
    · rw [hc1]
      exact hs
    · exact ih (fun c hc => h c (by simp [hc])) hs c hc2
  | case3 d rest hguard ih =>
    intro h hs c hc
    by_cases hd : d = '/'
    · subst hd
      cases rest with
      | nil =>
        rw [cds_single_slash] at hc
        rcases List.mem_cons.mp hc with hc1 | hc2
        · rw [hc1]
          exact hs
        · simp at hc2
      | cons e rest2 =>
        have he : ¬ e = '/' := fun hh => hguard rest2 rfl (by rw [hh])
        rw [cds_slash_ne he] at hc
        rcases List.mem_cons.mp hc with hc1 | hc2
        · rw [hc1]
          exact hs
        · exact ih (fun c hc => h c (by simp [hc])) hs c hc2
    · rw [cds_cons_ne hd] at hc
      rcases List.mem_cons.mp hc with hc1 | hc2
      · rw [hc1]
        exact h d (by simp)
      · exact ih (fun c hc => h c (by simp [hc])) hs c hc2

theorem pyLowerChar_out {c : Char} (h : allowedMidChar c = true) :
    isOutChar (pyLowerChar c) = true := by
  by_cases hu : pyIsUpperC c = true
  · have hb := (pyIsUpperC_iff c).mp hu
    have ht : (pyLowerChar c).toNat = c.toNat + 32 := by
      rw [pyLowerChar_toNat, if_pos hu]
    have : pyIsLowerC (pyLowerChar c) = true := by
      rw [pyIsLowerC_iff, ht]
      omega
    simp [isOutChar, this]
  · rw [show pyLowerChar c = c by rw [pyLowerChar, if_neg hu]]
    simp only [allowedMidChar, pyIsAlnumC, Bool.or_eq_true, decide_eq_true_eq] at h
    simp only [isOutChar, Bool.or_eq_true, decide_eq_true_eq]
    tauto

theorem pyLowerChar_eq_slash {c : Char} (h : pyLowerChar c = '/') : c = '/' := by
  by_cases hu : pyIsUpperC c = true
  · exfalso
    have hb := (pyIsUpperC_iff c).mp hu
    have ht : (pyLowerChar c).toNat = c.toNat + 32 := by
      rw [pyLowerChar_toNat, if_pos hu]
    rw [h] at ht
    have : ('/' : Char).toNat = 47 := by decide
    omega
  · rw [pyLowerChar, if_neg hu] at h
    exact h

theorem pyLowerChar_eq_underscore {c : Char} (h : pyLowerChar c = '_') : c = '_' := by
  by_cases hu : pyIsUpperC c = true
  · exfalso
    have hb := (pyIsUpperC_iff c).mp hu
    have ht : (pyLowerChar c).toNat = c.toNat + 32 := by
      rw [pyLowerChar_toNat, if_pos hu]
    rw [h] at ht
    have : ('_' : Char).toNat = 95 := by decide
    omega
  · rw [pyLowerChar, if_neg hu] at h
    exact h

theorem csuGo_no_slash_underscore :
    ∀ (l : List Char),
      (∀ b, pairFree '/' '_' (csuGo b l) = true) ∧ (csuGo true l).head? ≠ some '_' := by
  intro l
  induction l with
  | nil => exact ⟨fun b => rfl, by simp [csuGo]⟩
  | cons c rest ih =>
    obtain ⟨ihPF, ihHd⟩ := ih
    have hd : ∀ b, pairFree '/' '_' (csuGo b (c :: rest)) = true := by
      intro b
      by_cases h1 : (b && c = '_') = true
      · rw [show csuGo b (c :: rest) = csuGo true rest by simp [csuGo, h1]]
        exact ihPF true
      · by_cases h2 : c = '/'
        · rw [show csuGo b (c :: rest) = '/' :: csuGo true rest by
            simp [csuGo, Bool.eq_false_iff.mpr h1, h2]]
          rw [pairFree_cons]
          refine Bool.and_eq_true_iff.mpr ⟨?_, ihPF true⟩
          cases hh : (csuGo true rest).head? with
          | none => rfl
          | some y =>
            have hy : ¬ y = '_' := fun hy => ihHd (by rw [hh, hy])
            simp [hy]
        · rw [show csuGo b (c :: rest) = c :: csuGo false rest by
            simp [csuGo, Bool.eq_false_iff.mpr h1, h2]]
          rw [pairFree_cons]
          refine Bool.and_eq_true_iff.mpr ⟨?_, ihPF false⟩
          cases hh : (csuGo false rest).head? with
          | none => rfl
          | some y => simp [h2]
    refine ⟨hd, ?_⟩
    by_cases hc : c = '_'
    · rw [show csuGo true (c :: rest) = csuGo true rest by simp [csuGo, hc]]
      exact ihHd
    · rw [csuGo_true_cons_ne hc]
      by_cases h2 : c = '/'
      · simp [h2]
      · simp [h2, hc]

theorem cds_pairFree_su :
    ∀ (l : List Char), pairFree '/' '_' l = true →
      pairFree '/' '_' (collapseDoubleSlashes l) = true := by
  intro l
  induction l using collapseDoubleSlashes.induct with
  | case1 =>
    intro _
    rfl
  | case2 rest ih =>
    intro h
    rw [cds_slash_slash, pairFree_cons]
    have hrest : pairFree '/' '_' rest = true := pairFree_tail (pairFree_tail h)
    refine Bool.and_eq_true_iff.mpr ⟨?_, ih hrest⟩
    rw [cds_head]
    cases hh : rest.head? with
    | none => rfl
    | some y =>
      cases rest with
      | nil => simp at hh
      | cons y' m =>
        simp only [List.head?_cons, Option.some.injEq] at hh
        subst hh
        have := pairFree_head (pairFree_tail h)
        simp only [Bool.and_eq_false_iff, decide_eq_false_iff_not] at this
        rcases this with h1 | h2
        · exact absurd trivial h1
        · simp [h2]
  | case3 d rest hguard ih =>
    intro h
    by_cases hd : d = '/'
    · subst hd
      cases rest with
      | nil => rfl
      | cons e rest2 =>
        have he : ¬ e = '/' := fun hh => hguard rest2 rfl (by rw [hh])
        rw [cds_slash_ne he, pairFree_cons]
        refine Bool.and_eq_true_iff.mpr ⟨?_, ih (pairFree_tail h)⟩
        rw [cds_head]
        simp only [List.head?_cons]
        have := pairFree_head h
        simp only [Bool.and_eq_false_iff, decide_eq_false_iff_not] at this
        rcases this with h1 | h2
        · exact absurd trivial h1
        · simp [h2]
    · rw [cds_cons_ne hd, pairFree_cons]
      refine Bool.and_eq_true_iff.mpr ⟨?_, ih (pairFree_tail h)⟩
      rw [cds_head]
      cases hh : rest.head? with
      | none => rfl
      | some y => simp [hd]

theorem map_pyLower_pairFree_su :
    ∀ (l : List Char), pairFree '/' '_' l = true →
      pairFree '/' '_' (l.map pyLowerChar) = true := by
  intro l
  induction l with
  | nil =>
    intro _
    rfl
  | cons c rest ih =>
    intro h
    rw [List.map_cons, pairFree_cons]
    refine Bool.and_eq_true_iff.mpr ⟨?_, ih (pairFree_tail h)⟩
    rw [List.head?_map]
    cases hh : rest.head? with
    | none => rfl
    | some y =>
      by_cases hcs : pyLowerChar c = '/'
      · by_cases hyu : pyLowerChar y = '_'
        · exfalso
          have hc' := pyLowerChar_eq_slash hcs
          have hy' := pyLowerChar_eq_underscore hyu
          cases rest with
          | nil => simp at hh
          | cons y' m =>
            simp only [List.head?_cons, Option.some.injEq] at hh
            subst hh
            have := pairFree_head h
            simp only [Bool.and_eq_false_iff, decide_eq_false_iff_not] at this
            rcases this with h1 | h2
            · exact h1 hc'
            · exact h2 hy'
        · simp [hyu]
      · simp [hcs]

theorem norm_ne_slash {c : Char} (hc : ¬ c = '/') :
    ¬ hyphenToUnderscore (sub1char c) = '/' := by
  by_cases h : (pyIsAlnumC c || c = '/' || c = '_' || c = '-') = true
  · rw [sub1char, if_pos h]
    by_cases hd : c = '-'
    · simp [hyphenToUnderscore, hd]
    · rw [hyphenToUnderscore, if_neg hd]
      exact hc
  · rw [sub1char, if_neg h]
    simp [hyphenToUnderscore]

/-- Every successful sanitize_name output is nonempty, consists of
lowercase letters, digits, underscores and slashes, does not begin with a
slash, and contains no slash directly followed by an underscore. -/

theorem sanitize_output_props {x y : String} (h : sanitize_name x = .ok y) :
    y.data ≠ [] ∧ (∀ c ∈ y.data, isOutChar c = true) ∧
    y.data.head? ≠ some '/' ∧ pairFree '/' '_' y.data = true := by
  simp only [sanitize_name] at h
  by_cases he : sanitizeChars x.data = []
  · rw [if_pos he] at h
    exact Except.noConfusion h
  · rw [if_neg he] at h
    have hy : y = ⟨(sanitizeChars x.data).map pyLowerChar⟩ := (Except.ok.inj h).symm
    subst hy
    have hs4 : sanitizeChars x.data =
        collapseDoubleSlashes (csuGo false (iuGo false
          ((pstripBy (fun c => c = '/') (pstripBy pyIsSpaceC x.data)).map
            (fun c => hyphenToUnderscore (sub1char c))))) := rfl
    have h1 : ∀ c ∈ (pstripBy (fun c => c = '/') (pstripBy pyIsSpaceC x.data)).map
        (fun c => hyphenToUnderscore (sub1char c)), allowedMidChar c = true := by
      intro c hc
      obtain ⟨c0, _, rfl⟩ := List.mem_map.mp hc
      exact norm_char_allowed c0
    have h2 := iuGo_chars _ false h1
    have h3 := csuGo_chars _ false h2
    have h4 := cds_chars allowedMidChar _ h3 (by decide)
    refine ⟨?_, ?_, ?_, ?_⟩
    · show (sanitizeChars x.data).map pyLowerChar ≠ []
      intro hcontra
      exact he (by simpa using hcontra)
    · show ∀ c ∈ (sanitizeChars x.data).map pyLowerChar, isOutChar c = true
      intro c hc
      obtain ⟨c0, hc0, rfl⟩ := List.mem_map.mp hc
      refine pyLowerChar_out (h4 c0 ?_)
      rw [← hs4]
      exact hc0
    · show ((sanitizeChars x.data).map pyLowerChar).head? ≠ some '/'
      rw [List.head?_map]
      cases hW : pstripBy (fun c => c = '/') (pstripBy pyIsSpaceC x.data) with
      | nil =>
        exfalso
        apply he
        rw [hs4, hW]
        rfl
      | cons c0 m0 =>
        have hne0 : pstripBy (fun c => c = '/') (pstripBy pyIsSpaceC x.data) ≠ [] := by
          rw [hW]
          simp
        have hhead : (pstripBy (fun c => c = '/') (pstripBy pyIsSpaceC x.data)).head? =
            (lstripBy (fun c => c = '/') (pstripBy pyIsSpaceC x.data)).head? :=
          head_rstripBy hne0
        have hc0 : ¬ c0 = '/' := by
          have hsl : (lstripBy (fun c => c = '/') (pstripBy pyIsSpaceC x.data)).head? =
              some c0 := by
            rw [← hhead, hW]
            rfl
          have := head_lstripBy hsl
          simpa using this
        have e1 : (sanitizeChars x.data).head? =
            some (hyphenToUnderscore (sub1char c0)) := by
          rw [hs4, cds_head]
          rw [show (pstripBy (fun c => c = '/') (pstripBy pyIsSpaceC x.data)).map
              (fun c => hyphenToUnderscore (sub1char c)) =
              hyphenToUnderscore (sub1char c0) ::
                m0.map (fun c => hyphenToUnderscore (sub1char c)) from by rw [hW]; rfl]
          rw [iuGo_false_cons]
          exact csuGo_false_head _ _
        rw [e1]
        intro hcontra
        have hx : pyLowerChar (hyphenToUnderscore (sub1char c0)) = '/' :=
          Option.some.inj hcontra
        exact norm_ne_slash hc0 (pyLowerChar_eq_slash hx)
    · show pairFree '/' '_' ((sanitizeChars x.data).map pyLowerChar) = true
      apply map_pyLower_pairFree_su
      rw [hs4]
      apply cds_pairFree_su
      exact (csuGo_no_slash_underscore _).1 false

theorem mem_of_head? {α : Type} {l : List α} {c : α} (h : l.head? = some c) : c ∈ l := by
  cases l with
  | nil => simp at h
  | cons a m =>
    simp only [List.head?_cons, Option.some.injEq] at h
    rw [← h]
    simp

theorem mem_of_getLast? {α : Type} {l : List α} {c : α} (h : l.getLast? = some c) : c ∈ l := by
  rw [← List.head?_reverse] at h
  rw [← List.mem_reverse]
  exact mem_of_head? h

theorem ne_nil_of_head? {α : Type} {l : List α} {c : α} (h : l.head? = some c) : l ≠ [] := by
  cases l with
  | nil => simp at h
  | cons a m => simp

theorem rstripBy_eq_self {p : Char → Bool} {l : List Char}
    (h : ∀ c, l.getLast? = some c → p c = false) : rstripBy p l = l := by
  cases hg : l.getLast? with
  | none =>
    rw [List.getLast?_eq_none_iff] at hg
    rw [hg]
    rfl
  | some c =>
    have hc := h c hg
    have hr : l.reverse.head? = some c := by
      rw [List.head?_reverse]
      exact hg
    cases hrev : l.reverse with
    | nil => rw [hrev] at hr; simp at hr
    | cons a m =>
      rw [hrev] at hr
      simp only [List.head?_cons, Option.some.injEq] at hr
      subst hr
      unfold rstripBy
      rw [hrev, List.dropWhile_cons, if_neg (by rw [hc]; simp)]
      rw [← hrev, List.reverse_reverse]

theorem lstripBy_eq_self {p : Char → Bool} {l : List Char}
    (h : ∀ c, l.head? = some c → p c = false) : lstripBy p l = l := by
  cases l with
  | nil => rfl
  | cons a m => exact lstripBy_cons_of_neg (h a rfl) m

theorem map_eq_self_of_id {α : Type} {f : α → α} :
    ∀ {l : List α}, (∀ c ∈ l, f c = c) → l.map f = l := by
  intro l
  induction l with
  | nil =>
    intro _
    rfl
  | cons a m ih =>
    intro h
    rw [List.map_cons, h a (by simp), ih (fun c hc => h c (by simp [hc]))]

theorem isOut_not_space {c : Char} (h : isOutChar c = true) : pyIsSpaceC c = false := by
  cases hsp : pyIsSpaceC c with
  | false => rfl
  | true =>
    exfalso
    simp only [pyIsSpaceC, Bool.or_eq_true, decide_eq_true_eq] at hsp
    rcases hsp with ((((h1 | h1) | h1) | h1) | h1) | h1 <;> (rw [h1] at h; revert h; decide)

theorem isOut_norm_id {c : Char} (h : isOutChar c = true) :
    hyphenToUnderscore (sub1char c) = c := by
  have hda : ¬ c = '-' := by
    intro hh
    rw [hh] at h
    revert h
    decide
  have hall : (pyIsAlnumC c || c = '/' || c = '_' || c = '-') = true := by
    simp only [isOutChar, Bool.or_eq_true, decide_eq_true_eq] at h
    simp only [pyIsAlnumC, Bool.or_eq_true, decide_eq_true_eq]
    tauto
  rw [sub1char, if_pos hall, hyphenToUnderscore, if_neg hda]

theorem isOut_lower_id {c : Char} (h : isOutChar c = true) : pyLowerChar c = c := by
  have hu : ¬ pyIsUpperC c = true := by
    intro hup
    have h1 := (pyIsUpperC_iff c).mp hup
    simp only [isOutChar, Bool.or_eq_true, decide_eq_true_eq, pyIsLowerC_iff,
      pyIsDigitC_iff] at h
    rcases h with ((h2 | h2) | h2) | h2
    · omega
    · omega
    · rw [h2] at h1
      revert h1
      decide
    · rw [h2] at h1
      revert h1
      decide
  rw [pyLowerChar, if_neg hu]

theorem csu_iu_id :
    ∀ (l : List Char), pairFree '/' '_' l = true →
      (csuGo false (iuGo false l) = l ∧
       (l.head? ≠ some '_' → csuGo true (iuGo true l) = l)) := by
  intro l
  induction l with
  | nil =>
    intro _
    exact ⟨rfl, fun _ => rfl⟩
  | cons c rest ih =>
    intro h
    obtain ⟨ihA, ihB⟩ := ih (pairFree_tail h)
    have hheadrest : ('/' :: rest).head? = some '/' → True := fun _ => trivial
    have hBrest : c = '/' → rest.head? ≠ some '_' := by
      intro hc hh
      cases rest with
      | nil => simp at hh
      | cons y m =>
        simp only [List.head?_cons, Option.some.injEq] at hh
        subst hh
        have := pairFree_head h
        rw [hc] at this
        simp at this
    constructor
    · rw [iuGo_false_cons]
      by_cases hc : c = '/'
      · rw [show (decide (c = '/')) = true by simp [hc]]
        rw [csuGo_false_cons, if_pos hc, hc]
        rw [ihB (hBrest hc)]
      · rw [show (decide (c = '/')) = false by simp [hc]]
        rw [csuGo_false_cons, if_neg hc, ihA]
    · intro hhd
      have hc8 : ¬ c = '_' := by
        intro hh
        apply hhd
        rw [hh]
        rfl
      by_cases hdig : pyIsDigitC c = true
      · rw [iuGo_true_cons_digit hdig]
        rw [csuGo_true_underscore]
        have hcs : ¬ c = '/' := by
          intro hh
          rw [hh] at hdig
          revert hdig
          decide
        rw [csuGo_true_cons_ne hc8, if_neg hcs, ihA]
      · rw [iuGo_true_cons_nondigit (Bool.eq_false_iff.mpr hdig)]
        by_cases hcs : c = '/'
        · rw [show (decide (c = '/')) = true by simp [hcs]]
          rw [csuGo_true_cons_ne hc8, if_pos hcs, hcs]
          rw [ihB (hBrest hcs)]
        · rw [show (decide (c = '/')) = false by simp [hcs]]
          rw [csuGo_true_cons_ne hc8, if_neg hcs, ihA]

theorem cds_id_of_pairFree :
    ∀ (l : List Char), pairFree '/' '/' l = true → collapseDoubleSlashes l = l := by
  intro l
  induction l using collapseDoubleSlashes.induct with
  | case1 =>
    intro _
    rfl
  | case2 rest ih =>
    intro h
    exfalso
    have := pairFree_head h
    simp at this
  | case3 d rest hguard ih =>
    intro h
    by_cases hd : d = '/'
    · subst hd
      cases rest with
      | nil => rfl
      | cons e rest2 =>
        have he : ¬ e = '/' := fun hh => hguard rest2 rfl (by rw [hh])
        rw [cds_slash_ne he, ih (pairFree_tail h)]
    · rw [cds_cons_ne hd, ih (pairFree_tail h)]

/-- Sanitizing a sanitize_name output again is the identity, provided that
output neither ends in a slash nor contains an empty path level. -/

theorem sanitize_fixpoint {x y : String} (h : sanitize_name x = .ok y)
    (h1 : endsWithSlash y = false) (h2 : noDoubleSlash y = true) :
    sanitize_name y = .ok y := by
  obtain ⟨hne, hchars, hhd, hsu⟩ := sanitize_output_props h
  have hlast : ∀ c, y.data.getLast? = some c → c ≠ '/' := by
    intro c hc hcontra
    rw [hcontra] at hc
    simp only [endsWithSlash] at h1
    rw [hc] at h1
    simp at h1
  have e0 : pstripBy pyIsSpaceC y.data = y.data := by
    unfold pstripBy
    rw [lstripBy_eq_self (fun c hc => isOut_not_space (hchars c (mem_of_head? hc)))]
    exact rstripBy_eq_self (fun c hc => isOut_not_space (hchars c (mem_of_getLast? hc)))
  have e1 : pstripBy (fun c => c = '/') (pstripBy pyIsSpaceC y.data) = y.data := by
    rw [e0]
    unfold pstripBy
    rw [lstripBy_eq_self (p := fun c => decide (c = '/'))
      (fun c hc => by
        have : c ≠ '/' := fun hcontra => hhd (by rw [← hcontra]; exact hc.symm ▸ hc)
        simp [this])]
    exact rstripBy_eq_self (fun c hc => by simp [hlast c hc])
  have e2 : y.data.map (fun c => hyphenToUnderscore (sub1char c)) = y.data :=
    map_eq_self_of_id (fun c hc => isOut_norm_id (hchars c hc))
  have e3 : csuGo false (iuGo false y.data) = y.data := (csu_iu_id y.data hsu).1
  have e4 : collapseDoubleSlashes y.data = y.data := by
    apply cds_id_of_pairFree
    simpa [noDoubleSlash] using h2
  have echars : sanitizeChars y.data = y.data := by
    show collapseDoubleSlashes (csuGo false (iuGo false
      ((pstripBy (fun c => c = '/') (pstripBy pyIsSpaceC y.data)).map
        (fun c => hyphenToUnderscore (sub1char c))))) = y.data
    rw [e1, e2, e3, e4]
  have elower : y.data.map pyLowerChar = y.data :=
    map_eq_self_of_id (fun c hc => isOut_lower_id (hchars c hc))
  simp only [sanitize_name, echars, elower]
  rw [if_neg hne]

theorem sanitize_ok_of_head {name : String} {c : Char} {l : List Char}
    (hdata : name.data = c :: l) (hsp : pyIsSpaceC c = false) (hsl : ¬ c = '/') :
    ∃ y, sanitize_name name = .ok y := by
  suffices hne : sanitizeChars name.data ≠ [] by
    refine ⟨⟨(sanitizeChars name.data).map pyLowerChar⟩, ?_⟩
    simp only [sanitize_name]
    rw [if_neg hne]
  have e0 : ∃ m, pstripBy pyIsSpaceC name.data = c :: m := by
    rw [hdata]
    unfold pstripBy
    rw [lstripBy_cons_of_neg hsp]
    exact ⟨rstripBy pyIsSpaceC l, rstripBy_cons_of_neg hsp l⟩
  obtain ⟨m, hm⟩ := e0
  have e1 : ∃ m2, pstripBy (fun c => c = '/') (pstripBy pyIsSpaceC name.data) = c :: m2 := by
    rw [hm]
    unfold pstripBy
    rw [lstripBy_cons_of_neg (p := fun c => decide (c = '/')) (by simp [hsl])]
    exact ⟨rstripBy (fun c => decide (c = '/')) m,
      rstripBy_cons_of_neg (by simp [hsl]) m⟩
  obtain ⟨m2, hm2⟩ := e1
  have e2 : (sanitizeChars name.data).head? =
      some (hyphenToUnderscore (sub1char c)) := by
    show (collapseDoubleSlashes (csuGo false (iuGo false
      ((pstripBy (fun c => c = '/') (pstripBy pyIsSpaceC name.data)).map
        (fun c => hyphenToUnderscore (sub1char c)))))).head? = _
    rw [cds_head, hm2]
    rw [show ((c :: m2).map (fun c => hyphenToUnderscore (sub1char c))) =
        hyphenToUnderscore (sub1char c) ::
          m2.map (fun c => hyphenToUnderscore (sub1char c)) from rfl]
    rw [iuGo_false_cons]
    exact csuGo_false_head _ _
  exact ne_nil_of_head? e2

theorem string_iot_data (t : String) :
    ("iot/opc_delta/" ++ t).data = 'i' :: ("ot/opc_delta/".data ++ t.data) := by
  rw [String.data_append]
  rfl

theorem sanitize_iot_prefix_ok (t : String) :
    ∃ y, sanitize_name ("iot/opc_delta/" ++ t) = .ok y := by
  refine sanitize_ok_of_head (string_iot_data t) (by decide) (by decide)

example : matchesSpecSanitizedShape "line_1" = true := by decide

example : matchesSpecSanitizedShape "iot/opc_delta/a/b" = true := by decide

example : matchesSpecSanitizedShape "2x" = false := by decide

example : matchesSpecSanitizedShape "a//b" = false := by decide

theorem sanitize_write_path_ok (topic wn label : String) :
    ∃ y, sanitize_name ("iot/opc_delta/" ++ topic ++ "/" ++ wn ++ "/" ++ "/" ++ label) =
      .ok y := by
  have hdata : ∃ l, ("iot/opc_delta/" ++ topic ++ "/" ++ wn ++ "/" ++ "/" ++ label).data =
      'i' :: l := by
    simp only [String.data_append, List.cons_append, List.append_assoc]
    exact ⟨_, rfl⟩
  obtain ⟨l, hl⟩ := hdata
  exact sanitize_ok_of_head hl (by decide) (by decide)

theorem processProps_append_ok (base : String) (xs ys : List (String × Json))
    (stage s1 : Stage) (h : processProps stage base xs = (s1, none)) :
    processProps stage base (xs ++ ys) = processProps s1 base ys := by
  rw [processProps_append base xs ys, h]

/-- C1: for every valid decoded telemetry record and every document state,
applying the record twice, as happens when a byte-identical message is
re-delivered, yields exactly the document state of the first application:
the same prims and the same attribute values, with no duplicated prims and
no appended values. -/

theorem claim_C1_record_idempotent (topic : String) (msg : Option Json) (s s' : Stage)
    (h : write_to_opc_semantics topic msg s = ⟨s', 1, .applied⟩) :
    write_to_opc_semantics topic msg s' = ⟨s', 1, .applied⟩ :=
  write_applied_idem topic msg s s' h

theorem claim_C1_witness :
    write_to_opc_semantics "topic"
      (some (.obj [("DataSetWriterName", .str "Line:1"),
                   ("TimeStamp", .str "2024-01-01T00:09:00"),
                   ("Payload", .obj [("ns=2;s=Speed", .obj [("Value", .str "42")])])])) [] =
      ⟨[("/iot/opc_delta/topic/line_1/ns_2_s_speed", ⟨"Scope", [("Value", "42")]⟩)], 1,
        .applied⟩ ∧
    write_to_opc_semantics "topic"
      (some (.obj [("DataSetWriterName", .str "Line:1"),
                   ("TimeStamp", .str "2024-01-01T00:09:00"),
                   ("Payload", .obj [("ns=2;s=Speed", .obj [("Value", .str "42")])])]))
      [("/iot/opc_delta/topic/line_1/ns_2_s_speed", ⟨"Scope", [("Value", "42")]⟩)] =
      ⟨[("/iot/opc_delta/topic/line_1/ns_2_s_speed", ⟨"Scope", [("Value", "42")]⟩)], 1,
        .applied⟩ :=
  ⟨by decide, claim_C1_record_idempotent "topic"
    (some (.obj [("DataSetWriterName", .str "Line:1"),
                 ("TimeStamp", .str "2024-01-01T00:09:00"),
                 ("Payload", .obj [("ns=2;s=Speed", .obj [("Value", .str "42")])])])) []
    [("/iot/opc_delta/topic/line_1/ns_2_s_speed", ⟨"Scope", [("Value", "42")]⟩)]
    (by decide)⟩

/-- C3 counterexample: sanitize_name succeeds on the raw name 2x but its
output 2x does not match the claimed expression, whose segments must begin
with a lowercase letter or underscore; the underscore inserted before a
digit by the fourth pipeline step is removed again by the fifth step, so
digit-initial segments survive. -/

theorem claim_C3_counterexample :
    sanitize_name "2x" = .ok "2x" ∧ matchesSpecSanitizedShape "2x" = false ∧
    sanitize_name "a/1" = .ok "a/1" ∧ matchesSpecSanitizedShape "a/1" = false := by
  refine ⟨by decide, by decide, by decide, by decide⟩

/-- C3 amended: every successful sanitize_name output is nonempty, uses
only lowercase letters, digits, underscores and slashes, and does not
begin with a slash; segments may however be empty or begin with a digit. -/

theorem claim_C3_amended (x y : String) (h : sanitize_name x = .ok y) :
    y ≠ "" ∧ y.data.all isOutChar = true ∧ y.data.head? ≠ some '/' := by
  obtain ⟨hne, hchars, hhd, _⟩ := sanitize_output_props h
  refine ⟨?_, ?_, hhd⟩
  · intro hc
    exact hne (congrArg String.data hc)
  · rw [List.all_eq_true]
    exact hchars

theorem claim_C3_amended_witness :
    sanitize_name "A b/c-1.x" = .ok "a_b/c_1_x" ∧
    (("a_b/c_1_x" : String) ≠ "" ∧ ("a_b/c_1_x" : String).data.all isOutChar = true ∧
      ("a_b/c_1_x" : String).data.head? ≠ some '/') :=
  ⟨by decide, claim_C3_amended "A b/c-1.x" "a_b/c_1_x" (by decide)⟩

/-- C4 counterexample: sanitize_name is not idempotent: on the input a
slash hyphen it yields a with a trailing slash, and sanitizing that output
strips the trailing slash and yields plain a. -/

theorem claim_C4_counterexample :
    sanitize_name "a/-" = .ok "a/" ∧ sanitize_name "a/" = .ok "a" ∧
    ("a" : String) ≠ "a/" := by
  refine ⟨by decide, by decide, by decide⟩

/-- C4 amended: sanitize_name, a pure function and hence deterministic, is
idempotent on every input whose output neither ends in a slash nor
contains a double slash; outputs with a trailing slash, such as that of
the C4 counterexample input, are not fixed points. -/

theorem claim_C4_amended (x y : String) (h : sanitize_name x = .ok y)
    (h1 : endsWithSlash y = false) (h2 : noDoubleSlash y = true) :
    sanitize_name y = .ok y :=
  sanitize_fixpoint h h1 h2

theorem claim_C4_amended_witness :
    sanitize_name "Conveyor:1/Speed Fast" = .ok "conveyor_1/speed_fast" ∧
    endsWithSlash "conveyor_1/speed_fast" = false ∧
    noDoubleSlash "conveyor_1/speed_fast" = true ∧
    sanitize_name "conveyor_1/speed_fast" = .ok "conveyor_1/speed_fast" :=
  ⟨by decide, by decide, by decide,
    claim_C4_amended "Conveyor:1/Speed Fast" "conveyor_1/speed_fast"
      (by decide) (by decide) (by decide)⟩

/-- C7: for every processed message, exactly one commit call is made when
the record is applied, and zero commit calls are made when the record is
rejected by decoding, validation, or staleness filtering (the latter in
the spec-modelled pipeline). -/

theorem claim_C7_commit_discipline (now window : Nat) (topic : String) (msg : Option Json)
    (s : Stage) :
    (write_to_opc_semantics topic msg s).commits =
      (if (write_to_opc_semantics topic msg s).outcome = .applied then 1 else 0) ∧
    (ingest_with_staleness now window topic msg s).commits =
      (if (ingest_with_staleness now window topic msg s).outcome = .applied then 1 else 0) :=
  ⟨write_commits_eq topic msg s, ingest_commits_eq now window topic msg s⟩

/-- C2 counterexample: the exact payload of the claim carries the
lowercase field names dataSetWriterName and payload; the engine under
src only reads DataSetWriterName and Payload, so it rejects the message
with no node created, no attribute set, and no commit — in particular the
claimed node iot/opc_delta/topic/line_1/speed is never created. -/

theorem claim_C2_counterexample :
    write_to_opc_semantics "topic"
      (some (.obj [("dataSetWriterName", .str "Line:1"),
                   ("TimeStamp", .str "2024-01-01T00:09:00"),
                   ("payload", .obj [("ns=2;s=Speed", .obj [("Value", .str "42")])])])) [] =
    ⟨[], 0, .failed "DataSetWriterName is missing from the payload."⟩ := by decide

/-- C2 amended: the engine rejects the lowercase-field payload of the
claim outright; for the capitalized-field equivalent it creates the node
at iot/opc_delta/topic/line_1/ns_2_s_speed — the property identifier
ns=2;s=Speed contains no colon, so the whole identifier (not the segment
Speed) becomes the sanitized leaf name — sets the attribute Value to the
string 42, and commits exactly once. -/

theorem claim_C2_amended :
    write_to_opc_semantics "topic"
      (some (.obj [("DataSetWriterName", .str "Line:1"),
                   ("TimeStamp", .str "2024-01-01T00:09:00"),
                   ("Payload", .obj [("ns=2;s=Speed", .obj [("Value", .str "42")])])])) [] =
    ⟨[("/iot/opc_delta/topic/line_1/ns_2_s_speed", ⟨"Scope", [("Value", "42")]⟩)], 1,
      .applied⟩ ∧
    write_to_opc_semantics "topic"
      (some (.obj [("dataSetWriterName", .str "Line:1"),
                   ("TimeStamp", .str "2024-01-01T00:09:00"),
                   ("payload", .obj [("ns=2;s=Speed", .obj [("Value", .str "42")])])]))
      [("/x", ⟨"Scope", []⟩)] =
    ⟨[("/x", ⟨"Scope", []⟩)], 0,
      .failed "DataSetWriterName is missing from the payload."⟩ := by
  refine ⟨by decide, by decide⟩

/-- C5, modelled from the spec: a record whose embedded timestamp is older
than the freshness window relative to processing time is dropped by the
staleness filter before any document mutation: the stage is unchanged and
no commit is made. -/

theorem claim_C5_stale_rejected (now window : Nat) (topic : String) (j : Json)
    (stage : Stage) (tstr : String) (ts : Nat)
    (hts : extractTimeStamp j = some tstr)
    (hparse : parseTimestamp tstr = some ts)
    (hold : window < now - ts) :
    ingest_with_staleness now window topic (some j) stage = ⟨stage, 0, .dropped⟩ := by
  have hfresh : isFresh (extractTimeStamp j) now window = false := by
    rw [hts]
    simp only [isFresh, hparse]
    simp
    omega
  simp [ingest_with_staleness, hfresh]

theorem claim_C5_witness :
    extractTimeStamp (.obj [("dataSetWriterName", .str "Line:1"),
      ("TimeStamp", .str "2024-01-01T00:00:00"),
      ("payload", .obj [("ns=2;s=Speed", .obj [("Value", .str "42")])])]) =
      some "2024-01-01T00:00:00" ∧
    parseTimestamp "2024-01-01T00:00:00" =
      some ((parseTimestamp "2024-01-01T00:00:00").getD 0) ∧
    DEFAULT_FRESHNESS_WINDOW <
      (parseTimestamp "2024-01-01T00:20:00").getD 0 -
        (parseTimestamp "2024-01-01T00:00:00").getD 0 ∧
    ingest_with_staleness ((parseTimestamp "2024-01-01T00:20:00").getD 0)
      DEFAULT_FRESHNESS_WINDOW "topic"
      (some (.obj [("dataSetWriterName", .str "Line:1"),
        ("TimeStamp", .str "2024-01-01T00:00:00"),
        ("payload", .obj [("ns=2;s=Speed", .obj [("Value", .str "42")])])])) [] =
      ⟨[], 0, .dropped⟩ :=
  ⟨by decide, by decide, by decide,
    claim_C5_stale_rejected ((parseTimestamp "2024-01-01T00:20:00").getD 0)
      DEFAULT_FRESHNESS_WINDOW "topic" _ [] "2024-01-01T00:00:00"
      ((parseTimestamp "2024-01-01T00:00:00").getD 0)
      (by decide) (by decide) (by decide)⟩

/-- C6 counterexample: a payload using the lowercase field names is not
decoded and applied as the capitalized equivalent is: the capitalized
variant creates a node and commits, while the lowercase variant is
rejected with an error, leaving the stage unchanged with zero commits. -/

theorem claim_C6_counterexample :
    write_to_opc_semantics "line" (some (.obj [("dataSetWriterName", .str "W"),
      ("payload", .obj [("p", .obj [("Value", .str "7")])])])) [] =
      ⟨[], 0, .failed "DataSetWriterName is missing from the payload."⟩ ∧
    write_to_opc_semantics "line" (some (.obj [("DataSetWriterName", .str "W"),
      ("Payload", .obj [("p", .obj [("Value", .str "7")])])])) [] =
      ⟨[("/iot/opc_delta/line/w/p", ⟨"Scope", [("Value", "7")]⟩)], 1, .applied⟩ := by
  refine ⟨by decide, by decide⟩

/-- C6 amended: the decoder of the src ingestion script accepts only the
capitalized field names DataSetWriterName and Payload; a nonempty payload
without a DataSetWriterName key — including one carrying only the
lowercase variants — is rejected with an error and never applied. -/

theorem claim_C6_amended (s : Stage) (topic : String) (fields : List (String × Json))
    (hne : fields ≠ [])
    (hmiss : alookup "DataSetWriterName" fields = none) :
    write_to_opc_semantics topic (some (.obj fields)) s =
      ⟨s, 0, .failed "DataSetWriterName is missing from the payload."⟩ := by
  have ht : truthy (.obj fields) = true := by simp [truthy, hne]
  have hgw : getWriterField fields = some "" := by simp [getWriterField, hmiss]
  simp [write_to_opc_semantics, ht, hgw, pyReplaceChar]

theorem claim_C6_amended_witness :
    ([("dataSetWriterName", Json.str "Line:1")] : List (String × Json)) ≠ [] ∧
    alookup "DataSetWriterName" [("dataSetWriterName", Json.str "Line:1")] = none ∧
    write_to_opc_semantics "t"
      (some (.obj [("dataSetWriterName", Json.str "Line:1")])) [] =
      ⟨[], 0, .failed "DataSetWriterName is missing from the payload."⟩ :=
  ⟨List.cons_ne_nil _ _, rfl,
    claim_C6_amended [] "t" [("dataSetWriterName", Json.str "Line:1")]
      (List.cons_ne_nil _ _) rfl⟩

/-- C8 counterexample: a payload whose writer-name field is blank (a
single space) is not rejected: the space is normalized to an underscore
and the record is fully applied with one commit, mutating the document. -/

theorem claim_C8_counterexample :
    write_to_opc_semantics "t"
      (some (.obj [("DataSetWriterName", .str " "),
                   ("Payload", .obj [("p", .obj [("Value", .str "1")])])])) [] =
    ⟨[("/iot/opc_delta/t//p", ⟨"Scope", [("Value", "1")]⟩)], 1, .applied⟩ := by decide

/-- C8 amended: processing raises an error with zero document mutations
and zero commits when the decoded structure is empty, when the writer-name
field is absent or the empty string (a whitespace-only name is instead
normalized to underscores and accepted), or when the writer name is a
string and the Payload container is absent. -/

theorem claim_C8_amended (s : Stage) (topic : String) (fields : List (String × Json))
    (h : fields = [] ∨ alookup "DataSetWriterName" fields = none ∨
         alookup "DataSetWriterName" fields = some (.str "") ∨
         (alookup "Payload" fields = none ∧
           ∃ w, alookup "DataSetWriterName" fields = some (.str w))) :
    (write_to_opc_semantics topic (some (.obj fields)) s).stage = s ∧
    (write_to_opc_semantics topic (some (.obj fields)) s).commits = 0 ∧
    isFailedOutcome (write_to_opc_semantics topic (some (.obj fields)) s).outcome = true := by
  by_cases htr : truthy (.obj fields) = false
  · simp [write_to_opc_semantics, htr, isFailedOutcome]
  · have ht : truthy (.obj fields) = true := by
      cases hb : truthy (.obj fields) with
      | false => exact absurd hb htr
      | true => rfl
    rcases h with h0 | h1 | h2 | ⟨h3, w, h4⟩
    · exfalso
      apply htr
      rw [h0]
      rfl
    · have hgw : getWriterField fields = some "" := by simp [getWriterField, h1]
      simp [write_to_opc_semantics, ht, hgw, isFailedOutcome, pyReplaceChar]
    · have hgw : getWriterField fields = some "" := by simp [getWriterField, h2]
      simp [write_to_opc_semantics, ht, hgw, isFailedOutcome, pyReplaceChar]
    · have hgw : getWriterField fields = some w := by simp [getWriterField, h4]
      by_cases hw : pyReplaceChar ' ' '_' (pyReplaceChar ':' '_' w) = ""
      · simp [write_to_opc_semantics, ht, hgw, hw, isFailedOutcome]
      · simp [write_to_opc_semantics, ht, hgw, hw, h3, isFailedOutcome]

theorem claim_C8_amended_witness :
    (([] : List (String × Json)) = [] ∨
      alookup "DataSetWriterName" ([] : List (String × Json)) = none ∨
      alookup "DataSetWriterName" ([] : List (String × Json)) = some (.str "") ∨
      (alookup "Payload" ([] : List (String × Json)) = none ∧
        ∃ w, alookup "DataSetWriterName" ([] : List (String × Json)) = some (.str w))) ∧
    (write_to_opc_semantics "t" (some (.obj [])) []).stage = [] ∧
    (write_to_opc_semantics "t" (some (.obj [])) []).commits = 0 ∧
    isFailedOutcome (write_to_opc_semantics "t" (some (.obj [])) []).outcome = true :=
  ⟨Or.inl rfl, claim_C8_amended [] "t" [] (Or.inl rfl)⟩

/-- C9: record application is atomic only at the commit level: when the
property loop fails partway — here at a property entry whose data is not a
mapping — no commit occurs, but the prims created and attribute values set
for the earlier entries of the same record, and the prim already ensured
for the failing entry, remain in the document. -/

theorem claim_C9_partial_mutation (stage : Stage) (topic wn : String)
    (good : List (String × Json)) (badId : String) (badData : Json)
    (rest : List (String × Json))
    (hwn : ¬ pyReplaceChar ' ' '_' (pyReplaceChar ':' '_' wn) = "")
    (hbad : isObjJson badData = false)
    (hgood : (processProps stage ("iot/opc_delta/" ++ topic ++ "/" ++
      pyReplaceChar ' ' '_' (pyReplaceChar ':' '_' wn) ++ "/") good).2 = none) :
    write_to_opc_semantics topic
      (some (.obj [("DataSetWriterName", .str wn),
                   ("Payload", .obj (good ++ (badId, badData) :: rest))])) stage =
      ⟨(processProps stage ("iot/opc_delta/" ++ topic ++ "/" ++
          pyReplaceChar ' ' '_' (pyReplaceChar ':' '_' wn) ++ "/")
          (good ++ [(badId, badData)])).1, 0, .failed "AttributeError: items"⟩ := by
  have ht : truthy (.obj [("DataSetWriterName", Json.str wn),
      ("Payload", .obj (good ++ (badId, badData) :: rest))]) = true := rfl
  have hgw : getWriterField [("DataSetWriterName", Json.str wn),
      ("Payload", .obj (good ++ (badId, badData) :: rest))] = some wn := rfl
  have hpl : alookup "Payload" [("DataSetWriterName", Json.str wn),
      ("Payload", .obj (good ++ (badId, badData) :: rest))] =
      some (.obj (good ++ (badId, badData) :: rest)) := rfl
  rw [write_obj_eval topic _ wn (good ++ (badId, badData) :: rest) stage ht hgw hwn hpl]
  have hg : processProps stage ("iot/opc_delta/" ++ topic ++ "/" ++
      pyReplaceChar ' ' '_' (pyReplaceChar ':' '_' wn) ++ "/") good =
      ((processProps stage ("iot/opc_delta/" ++ topic ++ "/" ++
        pyReplaceChar ' ' '_' (pyReplaceChar ':' '_' wn) ++ "/") good).1, none) :=
    Prod.ext rfl hgood
  obtain ⟨sp, hsp⟩ := sanitize_write_path_ok topic (pyReplaceChar ' ' '_'
    (pyReplaceChar ':' '_' wn))
    (pyReplaceChar '.' '_' (pyReplaceChar ';' '_' ⟨(splitOnChar ':' badId.data).getLastD []⟩))
  have hbadstep : ∀ (st : Stage) (tail : List (String × Json)),
      processProps st ("iot/opc_delta/" ++ topic ++ "/" ++
        pyReplaceChar ' ' '_' (pyReplaceChar ':' '_' wn) ++ "/")
        ((badId, badData) :: tail) =
      ((ensure_prim_exists st sp "Scope").1, some "AttributeError: items") := by
    intro st tail
    simp only [processProps, hsp]
    cases badData with
    | obj attrs => simp [isObjJson] at hbad
    | null => rfl
    | bool b => rfl
    | num n => rfl
    | str s0 => rfl
    | arr xs => rfl
  have e1 : processProps stage ("iot/opc_delta/" ++ topic ++ "/" ++
      pyReplaceChar ' ' '_' (pyReplaceChar ':' '_' wn) ++ "/")
      (good ++ (badId, badData) :: rest) =
      ((ensure_prim_exists ((processProps stage ("iot/opc_delta/" ++ topic ++ "/" ++
        pyReplaceChar ' ' '_' (pyReplaceChar ':' '_' wn) ++ "/") good).1) sp "Scope").1,
        some "AttributeError: items") := by
    rw [processProps_append_ok _ good _ stage _ hg]
    exact hbadstep _ rest
  have e2 : processProps stage ("iot/opc_delta/" ++ topic ++ "/" ++
      pyReplaceChar ' ' '_' (pyReplaceChar ':' '_' wn) ++ "/")
      (good ++ [(badId, badData)]) =
      ((ensure_prim_exists ((processProps stage ("iot/opc_delta/" ++ topic ++ "/" ++
        pyReplaceChar ' ' '_' (pyReplaceChar ':' '_' wn) ++ "/") good).1) sp "Scope").1,
        some "AttributeError: items") := by
    rw [processProps_append_ok _ good _ stage _ hg]
    exact hbadstep _ []
  rw [e1, e2]

theorem claim_C9_witness :
    (¬ pyReplaceChar ' ' '_' (pyReplaceChar ':' '_' "W") = "") ∧
    isObjJson (.str "x") = false ∧
    (processProps [] ("iot/opc_delta/" ++ "t" ++ "/" ++
      pyReplaceChar ' ' '_' (pyReplaceChar ':' '_' "W") ++ "/")
      [("g", .obj [("Value", .str "1")])]).2 = none ∧
    (processProps [] ("iot/opc_delta/" ++ "t" ++ "/" ++
      pyReplaceChar ' ' '_' (pyReplaceChar ':' '_' "W") ++ "/")
      ([("g", .obj [("Value", .str "1")])] ++ [("b", .str "x")])).1 =
      [("/iot/opc_delta/t/w/g", ⟨"Scope", [("Value", "1")]⟩),
       ("/iot/opc_delta/t/w/b", ⟨"Scope", []⟩)] ∧
    write_to_opc_semantics "t"
      (some (.obj [("DataSetWriterName", .str "W"),
                   ("Payload", .obj ([("g", .obj [("Value", .str "1")])] ++
                     ("b", .str "x") :: [("r", .obj [])]))])) [] =
      ⟨(processProps [] ("iot/opc_delta/" ++ "t" ++ "/" ++
          pyReplaceChar ' ' '_' (pyReplaceChar ':' '_' "W") ++ "/")
          ([("g", .obj [("Value", .str "1")])] ++ [("b", .str "x")])).1, 0,
        .failed "AttributeError: items"⟩ :=
  ⟨by decide, by decide, by decide, by decide,
    claim_C9_partial_mutation [] "t" "W" [("g", .obj [("Value", .str "1")])]
      "b" (.str "x") [("r", .obj [])] (by decide) (by decide) (by decide)⟩

/-- C10: the text stored for a scalar attribute value is Python's str of
the decoded value: strings verbatim, true and false as True and False,
null as None — so booleans and null do not round-trip in their JSON
spelling — while the record as a whole is applied with one commit. -/

theorem claim_C10_scalar_text (k : String) (v : Json) (_hs : isScalarJson v = true) :
    write_to_opc_semantics "t"
      (some (.obj [("DataSetWriterName", .str "w"),
                   ("Payload", .obj [("prop", .obj [(k, v)])])])) [] =
      ⟨[("/iot/opc_delta/t/w/prop", ⟨"Scope", [(k, pyStr v)]⟩)], 1, .applied⟩ ∧
    pyStr (.bool true) = "True" ∧ pyStr (.bool false) = "False" ∧
    pyStr .null = "None" ∧ pyStr (.num 42) = "42" ∧ pyStr (.str "42") = "42" ∧
    ("True" : String) ≠ "true" ∧ ("None" : String) ≠ "null" := by
  refine ⟨?_, rfl, rfl, rfl, by decide, rfl, by decide, by decide⟩
  have ht : truthy (.obj [("DataSetWriterName", Json.str "w"),
      ("Payload", .obj [("prop", .obj [(k, v)])])]) = true := rfl
  have hgw : getWriterField [("DataSetWriterName", Json.str "w"),
      ("Payload", .obj [("prop", .obj [(k, v)])])] = some "w" := rfl
  have hpl : alookup "Payload" [("DataSetWriterName", Json.str "w"),
      ("Payload", .obj [("prop", .obj [(k, v)])])] =
      some (.obj [("prop", .obj [(k, v)])]) := rfl
  rw [write_obj_eval "t" _ "w" [("prop", .obj [(k, v)])] [] ht hgw (by decide) hpl]
  have hsan : sanitize_name (("iot/opc_delta/" ++ "t" ++ "/" ++
      pyReplaceChar ' ' '_' (pyReplaceChar ':' '_' "w") ++ "/") ++ "/" ++
      pyReplaceChar '.' '_' (pyReplaceChar ';' '_'
        ⟨(splitOnChar ':' "prop".data).getLastD []⟩)) = .ok "iot/opc_delta/t/w/prop" := by
    decide
  have hpp : processProps [] ("iot/opc_delta/" ++ "t" ++ "/" ++
      pyReplaceChar ' ' '_' (pyReplaceChar ':' '_' "w") ++ "/") [("prop", .obj [(k, v)])] =
      ([("/iot/opc_delta/t/w/prop", ⟨"Scope", [(k, pyStr v)]⟩)], none) := by
    simp only [processProps, hsan]
    simp only [ensure_prim_exists, ensureAt, withSlash, alookup, List.foldl_cons,
      List.foldl_nil, setPrimAttr, setAttrOnPrim, GetAttribute, CreateAttribute,
      setAttributeValue, aupdate]
    simp
  rw [hpp]

theorem claim_C10_witness :
    isScalarJson (.bool true) = true ∧
    (write_to_opc_semantics "t"
      (some (.obj [("DataSetWriterName", .str "w"),
                   ("Payload", .obj [("prop", .obj [("Value", .bool true)])])])) [] =
      ⟨[("/iot/opc_delta/t/w/prop", ⟨"Scope", [("Value", "True")]⟩)], 1, .applied⟩ ∧
     pyStr (.bool true) = "True" ∧ pyStr (.bool false) = "False" ∧
     pyStr .null = "None" ∧ pyStr (.num 42) = "42" ∧ pyStr (.str "42") = "42" ∧
     ("True" : String) ≠ "true" ∧ ("None" : String) ≠ "null") :=
  ⟨by decide, claim_C10_scalar_text "Value" (.bool true) (by decide)⟩
